import Mathlib

/-!
Verification development for the document-chunking and content-addressed
ingestion pipeline of the `src/rag` package.

Modelling conventions:
* Python strings are modelled as lists of characters (`PyStr`); Python ints
  as `Int` (page numbers) or `Nat` (sizes, counts).
* The regular expressions of `chunking.py` are modelled as character-level
  scanners.  Python's Unicode character classes (backslash-d, backslash-s,
  backslash-w) are restricted to their ASCII fragments, which is exact on
  ASCII inputs; the end anchor is modelled as end-of-string (Python's
  dollar also matches before one trailing newline, handled where needed).
* SQLite tables are modelled as Lean lists, a connection as a pair of a
  durable snapshot and a live view, commit as copying live to durable.
* The FAISS index is modelled as a list of rational vectors plus a
  dimension; float vectors are modelled over the rationals.
-/

namespace Rag

abbrev PyStr := List Char

/-- ASCII model of Python whitespace: the characters stripped by
`str.strip()` and matched by the regex class backslash-s. -/
def isPySpace (c : Char) : Bool :=
  c = ' ' || c = '\t' || c = '\n' || c = '\r' || c = '\x0b' || c = '\x0c'

/-- Model of Python `str.strip()`: drop whitespace from both ends. -/
def pyStrip (s : PyStr) : PyStr :=
  ((s.dropWhile isPySpace).reverse.dropWhile isPySpace).reverse

/-- ASCII model of the regex word-character class backslash-w. -/
def isWordChar (c : Char) : Bool :=
  c.isAlpha || c.isDigit || c = '_'

/-- Model of the regex tail `.*$` applied to the remainder `r` of a line:
`.` does not match a newline, and the dollar anchor matches at the end of
the string or just before one trailing newline. -/
def dollarStarOk (r : PyStr) : Bool :=
  !r.contains '\n' || (r.getLast? == some '\n' && !r.dropLast.contains '\n')

/-- Zero-width word-boundary test for the position just before `r`, where
the previous character is known to be a word character. -/
def boundaryOk (r : PyStr) : Bool :=
  match r with
  | [] => true
  | c :: _ => !isWordChar c

/-- Count the maximal run of groups `.digits` at the front of `l`
(the `(?:\.\d+){1,6}` part of `_re_numbered_heading`), returning the
number of groups and the remainder. -/
def countDotGroupsGo : Nat → PyStr → Nat × PyStr
  | 0, l => (0, l)
  | fuel + 1, l =>
    match l with
    | '.' :: rest =>
      let ds := rest.takeWhile Char.isDigit
      if ds.isEmpty then (0, '.' :: rest)
      else
        let (n, r) := countDotGroupsGo fuel (rest.drop ds.length)
        (n + 1, r)
    | l => (0, l)

def countDotGroups (l : PyStr) : Nat × PyStr := countDotGroupsGo l.length l

/-- Model of `_re_numbered_heading`,
`^\s*(\d+(?:\.\d+){1,6})\s+(.+?)\s*$`: leading whitespace, a digit run,
one to six `.digits` groups, whitespace, then a non-empty title whose
trailing whitespace is absorbed by the anchor.  Backtracking never helps
here: a shorter digit run or group count always faces a digit or a dot
where whitespace is required. -/
def matchNumbered (s : PyStr) : Bool :=
  let r0 := s.dropWhile isPySpace
  let num := r0.takeWhile Char.isDigit
  if num.isEmpty then false
  else
    let r1 := r0.drop num.length
    let (g, r2) := countDotGroups r1
    if g < 1 || g > 6 then false
    else
      let ws := r2.takeWhile isPySpace
      if ws.isEmpty then false
      else
        let rest := r2.drop ws.length
        !rest.isEmpty &&
          (rest.drop (rest.takeWhile (fun c => c ≠ '\n')).length).all isPySpace

/-- The normalized title produced by `_re_numbered_heading` via the
f-string `f"{m.group(1)} {m.group(2).strip()}"`: the numeric part, one
space, and the remaining title stripped. -/
def numberedTitle (s : PyStr) : PyStr :=
  let r0 := s.dropWhile isPySpace
  let num := r0.takeWhile Char.isDigit
  let r1 := r0.drop num.length
  let (_, r2) := countDotGroups r1
  let g1 := r0.take (num.length + (r1.length - r2.length))
  let ws := r2.takeWhile isPySpace
  let rest := r2.drop ws.length
  g1 ++ ' ' :: pyStrip rest

def chapterKeywords : List PyStr :=
  ["CHAPTER".toList, "Chapter".toList, "SECTION".toList,
   "Section".toList, "APPENDIX".toList, "Appendix".toList]

/-- Model of `_re_chapter_section`,
`^\s*(CHAPTER|Chapter|SECTION|Section|APPENDIX|Appendix)\s+([A-Z0-9]+)\b.*$`. -/
def matchChapterSection (s : PyStr) : Bool :=
  let r0 := s.dropWhile isPySpace
  chapterKeywords.any (fun kw =>
    kw.isPrefixOf r0 &&
      (let r1 := r0.drop kw.length
       let ws := r1.takeWhile isPySpace
       !ws.isEmpty &&
         (let r2 := r1.drop ws.length
          let run := r2.takeWhile (fun c => c.isUpper || c.isDigit)
          !run.isEmpty && boundaryOk (r2.drop run.length) &&
            dollarStarOk (r2.drop run.length))))

def figureKeywords : List PyStr :=
  ["Figure".toList, "FIGURE".toList, "Table".toList, "TABLE".toList]

/-- Model of `_re_figure_table`,
`^\s*(Figure|FIGURE|Table|TABLE)\s+\d+([.-]\d+)?\b.*$`: after the keyword
and whitespace, a digit run with a word boundary after it, optionally
followed by `.digits` or `-digits` with the boundary after those instead
(the regex engine tries the optional group first and drops it on
failure, so the match succeeds when either variant does). -/
def matchFigureTable (s : PyStr) : Bool :=
  let r0 := s.dropWhile isPySpace
  figureKeywords.any (fun kw =>
    kw.isPrefixOf r0 &&
      (let r1 := r0.drop kw.length
       let ws := r1.takeWhile isPySpace
       !ws.isEmpty &&
         (let r2 := r1.drop ws.length
          let d1 := r2.takeWhile Char.isDigit
          !d1.isEmpty &&
            (let rem1 := r2.drop d1.length
             (boundaryOk rem1 && dollarStarOk rem1) ||
               (match rem1 with
                | c :: rest =>
                  (c = '.' || c = '-') &&
                    (let d2 := rest.takeWhile Char.isDigit
                     !d2.isEmpty && boundaryOk (rest.drop d2.length) &&
                       dollarStarOk (rest.drop d2.length))
                | [] => false)))))

/-- The character class of `_re_all_caps` after the first character. -/
def inCapsClass (c : Char) : Bool :=
  c.isUpper || c.isDigit || c = ' ' || c = '-' || c = '_' || c = '/' ||
    c = '(' || c = ')' || c = '.' || c = ',' || c = ':'

/-- Model of `_re_all_caps`, `^[A-Z0-9][A-Z0-9 \-_/().,:]{8,}$`: an
upper-case or digit first character followed by at least eight characters
from the class, spanning the whole string. -/
def matchAllCaps (s : PyStr) : Bool :=
  match s with
  | [] => false
  | c :: rest =>
    (c.isUpper || c.isDigit) && decide (8 ≤ rest.length) && rest.all inCapsClass

/-- Model of `is_heading_line` (chunking.py): strip the line, reject the
empty line, then test the four heading patterns in source order; the
all-caps pattern additionally requires the line not to end in a period. -/
def is_heading_line (line : PyStr) : Bool :=
  let s := pyStrip line
  if s.isEmpty then false
  else
    matchNumbered s || matchChapterSection s || matchFigureTable s ||
      (matchAllCaps s && !(s.getLast? == some '.'))

/-- Model of `extract_heading_title` (chunking.py). -/
def extract_heading_title (line : PyStr) : PyStr :=
  let s := pyStrip line
  if matchNumbered s then numberedTitle s
  else if matchChapterSection s then s
  else if matchFigureTable s then s
  else if matchAllCaps s then s
  else s.take 120

/-- Characters at which Python `str.splitlines()` breaks, restricted to
ASCII. -/
def isLineBreakChar (c : Char) : Bool :=
  c = '\n' || c = '\r' || c = '\x0b' || c = '\x0c'

/-- Model of `block_starts_with_heading` (chunking.py): the block's first
line (`block.splitlines()[0].strip()`) is tested; on success the
normalized title is returned.  (On the empty block the Python code would
raise `IndexError`; blocks produced by `split_into_blocks` are never
empty.) -/
def block_starts_with_heading (block : PyStr) : Option PyStr :=
  let first_line := pyStrip (block.takeWhile (fun c => !isLineBreakChar c))
  if is_heading_line first_line then some (extract_heading_title first_line)
  else none

/-- Model of the newline normalization in `split_into_blocks`:
`replace("\r\n", "\n").replace("\r", "\n")`. -/
def normalizeNewlines : PyStr → PyStr
  | [] => []
  | '\r' :: '\n' :: rest => '\n' :: normalizeNewlines rest
  | '\r' :: rest => '\n' :: normalizeNewlines rest
  | c :: rest => c :: normalizeNewlines rest

/-- Leftmost-longest match of the block separator `\n\s*\n+` starting at
the head of `l`: a newline, then the whitespace run, ending at the last
newline of that run (greedy `\s*` backtracks just enough to leave a final
newline run).  Returns the number of characters the separator consumes,
or `none` when no separator starts here. -/
def sepSpan (l : PyStr) : Option Nat :=
  match l with
  | '\n' :: rest =>
    let ws := rest.takeWhile isPySpace
    if ws.contains '\n' then
      some (1 + ws.length - (ws.reverse.takeWhile (fun c => c ≠ '\n')).length)
    else none
  | _ => none

/-- Scanner for `re.split(r"\n\s*\n+", t)`: walk the text, cutting at each
leftmost separator match.  `fuel` bounds the recursion; `t.length` is
always enough since each separator consumes at least two characters. -/
def splitBlanksGo : Nat → PyStr → PyStr → List PyStr
  | _, acc, [] => [acc.reverse]
  | 0, acc, l => [acc.reverse ++ l]
  | fuel + 1, acc, c :: rest =>
    match sepSpan (c :: rest) with
    | some n => acc.reverse :: splitBlanksGo fuel [] ((c :: rest).drop n)
    | none => splitBlanksGo fuel (c :: acc) rest

def splitBlanks (t : PyStr) : List PyStr :=
  splitBlanksGo t.length [] t

/-- Model of `split_into_blocks` (chunking.py): normalize newlines, strip,
split on blank-line separators, strip each raw block and drop the empty
ones. -/
def split_into_blocks (page_text : PyStr) : List PyStr :=
  let t := pyStrip (normalizeNewlines page_text)
  if t.isEmpty then []
  else ((splitBlanks t).map pyStrip).filter (fun b => !b.isEmpty)

/-! ## Chunker state machine (`chunk_pages`, chunking.py) -/

/-- Model of the `PageRecord` dataclass. -/
structure PageRecord where
  doc : PyStr
  source_pdf : PyStr
  page : Int
  text : PyStr
deriving DecidableEq

/-- Model of the `Chunk` dataclass. -/
structure Chunk where
  doc : PyStr
  source_pdf : PyStr
  page_start : Int
  page_end : Int
  section_title : Option PyStr
  text : PyStr
deriving DecidableEq

/-- The four size parameters of `chunk_pages`. -/
structure ChunkParams where
  target_chars : Nat
  max_chars : Nat
  min_chars : Nat
  overlap_chars : Nat
deriving DecidableEq

/-- The mutable closure state of `chunk_pages`: the current document and
source fields, current section title, accumulated block texts, tracked
page range, and the chunks emitted so far. -/
structure AccState where
  curDoc : Option PyStr := none
  curPdf : Option PyStr := none
  curSection : Option PyStr := none
  curTextParts : List PyStr := []
  curPageStart : Option Int := none
  curPageEnd : Option Int := none
  chunks : List Chunk := []
deriving DecidableEq

/-- The blank-line separator used by `"\n\n".join(cur_text_parts)`. -/
def nl2 : PyStr := ['\n', '\n']

/-- Model of the nested `flush(force)` closure of `chunk_pages`: emit the
accumulated text as a chunk unless the accumulator is empty, strips to
nothing, or is below `min_chars` without `force`; on emission, seed the
overlap tail into the next accumulator when configured. -/
def flushAcc (p : ChunkParams) (force : Bool) (s : AccState) : AccState :=
  match s.curPageStart, s.curPageEnd with
  | some ps, some pe =>
    if s.curTextParts.isEmpty then s
    else
      let text := pyStrip (List.intercalate nl2 s.curTextParts)
      if text.isEmpty then s
      else if text.length < p.min_chars && !force then s
      else
        let c : Chunk :=
          { doc := s.curDoc.getD "doc".toList
            source_pdf := s.curPdf.getD []
            page_start := ps
            page_end := pe
            section_title := s.curSection
            text := text }
        if 0 < p.overlap_chars && p.overlap_chars < text.length then
          { s with
              chunks := s.chunks ++ [c]
              curTextParts := [text.drop (text.length - p.overlap_chars)]
              curPageStart := some pe }
        else
          { s with
              chunks := s.chunks ++ [c]
              curTextParts := []
              curPageStart := none }
  | _, _ => s

/-- The heading step of the block loop: on a heading, flush the
accumulator unconditionally, then set the new section title. -/
def headingStep (p : ChunkParams) (block : PyStr) (s : AccState) : AccState :=
  match block_starts_with_heading block with
  | some h => { flushAcc p true s with curSection := some h }
  | none => s

/-- The page-range tracking: `if cur_page_start is None: cur_page_start =
pr.page` followed by `cur_page_end = pr.page`. -/
def rangeInit (page : Int) (s : AccState) : AccState :=
  { s with
      curPageStart := some (s.curPageStart.getD page)
      curPageEnd := some page }

/-- The `prospective_len` computed before appending a block:
`len("\n\n".join(parts)) + (2 if parts else 0) + len(block)`. -/
def prospectiveLen (block : PyStr) (s : AccState) : Nat :=
  (List.intercalate nl2 s.curTextParts).length +
    (if s.curTextParts.isEmpty then 0 else 2) + block.length

/-- The max-overflow step: if appending the block would exceed
`max_chars`, flush unconditionally and re-initialize the page range. -/
def maxStep (p : ChunkParams) (page : Int) (block : PyStr) (s : AccState) :
    AccState :=
  if p.max_chars < prospectiveLen block s then rangeInit page (flushAcc p true s)
  else s

/-- Appending the block to the accumulator. -/
def appendStep (block : PyStr) (s : AccState) : AccState :=
  { s with curTextParts := s.curTextParts ++ [block] }

/-- The target-size step: flush (non-forced) once the accumulated length
reaches `target_chars`. -/
def targetStep (p : ChunkParams) (s : AccState) : AccState :=
  if p.target_chars ≤ (List.intercalate nl2 s.curTextParts).length then
    flushAcc p false s
  else s

/-- Model of one iteration of the inner `for block in blocks` loop of
`chunk_pages`, in source order: heading flush, page-range tracking,
max-overflow flush, block append, target-size flush. -/
def processBlock (p : ChunkParams) (page : Int) (block : PyStr) (s : AccState) :
    AccState :=
  targetStep p
    (appendStep block (maxStep p page block (rangeInit page (headingStep p block s))))

/-- Model of one iteration of the outer `for pr in pages` loop of
`chunk_pages`: record the page's document and source fields, skip pages
whose text strips to nothing, and process each block of the page. -/
def processPage (p : ChunkParams) (s : AccState) (pr : PageRecord) : AccState :=
  let s := { s with curDoc := some pr.doc, curPdf := some pr.source_pdf }
  if (pyStrip pr.text).isEmpty then s
  else (split_into_blocks pr.text).foldl (fun st b => processBlock p pr.page b st) s

/-- Model of `chunk_pages` (chunking.py): fold the pages through the
accumulator and force a final flush. -/
def chunk_pages (p : ChunkParams) (pages : List PageRecord) : List Chunk :=
  (flushAcc p true (pages.foldl (processPage p) {})).chunks

/-! ## Metadata store (`rag03_meta_sqlite.py`) -/

/-- Model of `sha1_text`: a deterministic digest of the text.  The digest
is modelled as the text itself — a deterministic, collision-free digest.
The pipeline uses the digest only as a dedup key (equality tests and the
`UNIQUE` constraint), so only determinism matters; SHA-1 collisions are
outside the model, as they are outside the design (§3: identical text
maps to the same hash). -/
def sha1_text (s : PyStr) : PyStr := s

/-- Model of a row of the `chunks` table.  `chunk_id` is the opaque
identifier; the source draws it from `uuid.uuid4()`, modelled here as a
fresh counter (see `MetaStore.nextId`). -/
structure ChunkRow where
  chunk_id : Nat
  doc : PyStr
  source_pdf : PyStr
  page_start : Int
  page_end : Int
  section_title : Option PyStr
  text : PyStr
  sha1 : PyStr
deriving DecidableEq

/-- Model of the SQLite database file: the `chunks` table and the
`faiss_map` table (`faiss_id INTEGER PRIMARY KEY, chunk_id`), each as a
list of rows in insertion order. -/
structure MetaDB where
  chunks : List ChunkRow := []
  faissMap : List (Int × Nat) := []
deriving DecidableEq

/-- An open SQLite connection: the durable file contents, the live view
(uncommitted writes included, visible to reads on the same connection),
and the fresh-identifier counter modelling `uuid.uuid4()`.  Closing the
connection without committing discards the live view. -/
structure MetaStore where
  durable : MetaDB
  live : MetaDB
  nextId : Nat
deriving DecidableEq

/-- A strict upper bound on the chunk identifiers already present, used
to seed the fresh-identifier counter. -/
def uuidBase (db : MetaDB) : Nat :=
  db.chunks.foldr (fun r acc => max (r.chunk_id + 1) acc) 0

/-- Opening the store on a database file (`MetaStore.__init__`): the
schema is created if absent (`CREATE TABLE IF NOT EXISTS`, a no-op on
data), and live view equals durable contents. -/
def openStore (db : MetaDB) : MetaStore :=
  { durable := db, live := db, nextId := uuidBase db }

/-- Model of `MetaStore.has_sha1`: an existence query against the
connection's live view. -/
def has_sha1 (st : MetaStore) (s : PyStr) : Bool :=
  st.live.chunks.any (fun r => r.sha1 = s)

/-- Errors surfaced by the store and the index: `integrity` models
`sqlite3.IntegrityError` (PRIMARY KEY or UNIQUE violation), `dimMismatch`
the FAISS dimensionality assertion. -/
inductive StoreErr
  | integrity
  | dimMismatch
deriving DecidableEq

/-- Model of `MetaStore.insert_chunk`: hash the raw text, mint a fresh
identifier, and insert the row; the `INSERT` raises on a PRIMARY KEY
(`chunk_id`) or UNIQUE (`sha1`) violation.  No commit happens here. -/
def insert_chunk (st : MetaStore) (doc source_pdf : PyStr)
    (page_start page_end : Int) (section_title : Option PyStr) (text : PyStr) :
    Except StoreErr (ChunkRow × MetaStore) :=
  let s := sha1_text text
  let cid := st.nextId
  let row : ChunkRow :=
    { chunk_id := cid, doc := doc, source_pdf := source_pdf
      page_start := page_start, page_end := page_end
      section_title := section_title, text := text, sha1 := s }
  if st.live.chunks.any (fun r => r.chunk_id = cid) then .error .integrity
  else if st.live.chunks.any (fun r => r.sha1 = s) then .error .integrity
  else
    .ok (row,
      { st with
          live := { st.live with chunks := st.live.chunks ++ [row] }
          nextId := st.nextId + 1 })

/-- Model of `MetaStore.insert_faiss_map`: `executemany` over the zipped
pairs, each `INSERT` raising on a `faiss_id` PRIMARY KEY violation.
(SQLite foreign keys are not enabled by the source, so the `chunk_id`
foreign key is not enforced.) -/
def insert_faiss_map (st : MetaStore) : List (Int × Nat) →
    Except StoreErr MetaStore
  | [] => .ok st
  | (fid, cid) :: rest =>
    if st.live.faissMap.any (fun e => e.1 = fid) then .error .integrity
    else
      insert_faiss_map
        { st with live := { st.live with faissMap := st.live.faissMap ++ [(fid, cid)] } }
        rest

/-- Model of `MetaStore.commit`: the live view becomes durable. -/
def commitStore (st : MetaStore) : MetaStore :=
  { st with durable := st.live }

/-- The dictionary value built by `get_chunks_by_faiss_ids` for one hit. -/
structure MetaHit where
  faiss_id : Int
  doc : PyStr
  source_pdf : PyStr
  page_start : Int
  page_end : Int
  section_title : Option PyStr
  text : PyStr
deriving DecidableEq

/-- The rows produced by the SQL join
`faiss_map m JOIN chunks c ON c.chunk_id = m.chunk_id WHERE m.faiss_id IN ids`,
in nested-loop order. -/
def joinRows (db : MetaDB) (ids : List Int) : List MetaHit :=
  (db.faissMap.filter (fun e => ids.contains e.1)).flatMap (fun e =>
    (db.chunks.filter (fun c => c.chunk_id = e.2)).map (fun c =>
      { faiss_id := e.1, doc := c.doc, source_pdf := c.source_pdf
        page_start := c.page_start, page_end := c.page_end
        section_title := c.section_title, text := c.text }))

/-- The `by_id` dictionary lookup: later rows overwrite earlier ones with
the same key, so the lookup returns the last matching row. -/
def byIdLookup (rows : List MetaHit) (i : Int) : Option MetaHit :=
  (rows.filter (fun r => r.faiss_id = i)).getLast?

/-- Model of `MetaStore.get_chunks_by_faiss_ids`: early-return on the
empty request, otherwise query the join, build the `by_id` dictionary and
emit `[by_id[i] for i in faiss_ids if i in by_id]`. -/
def get_chunks_by_faiss_ids (db : MetaDB) (ids : List Int) : List MetaHit :=
  if ids.isEmpty then []
  else ids.filterMap (byIdLookup (joinRows db ids))

/-- Resolution of a single position against the whole store (no `WHERE`
filter): the last join row carrying that position, if any. -/
def resolveOne (db : MetaDB) (i : Int) : Option MetaHit :=
  byIdLookup
    (db.faissMap.flatMap (fun e =>
      (db.chunks.filter (fun c => c.chunk_id = e.2)).map (fun c =>
        { faiss_id := e.1, doc := c.doc, source_pdf := c.source_pdf
          page_start := c.page_start, page_end := c.page_end
          section_title := c.section_title, text := c.text })))
    i

/-! ## Vector index (`rag03_index_faiss.py`) -/

/-- Model of the `FaissIndex` wrapper: a fixed dimensionality and the
stored vectors in insertion order (`IndexFlatIP`).  Vector components are
modelled over the rationals.  The source L2-normalizes every batch before
insertion (`l2_normalize`, whose numeric content — the epsilon-floored
divisor — is modelled over the reals separately); normalization maps each
row to a row of the same shape and no claim below depends on the stored
component values, so the stored rows here are the raw ones. -/
structure FaissIndex where
  dim : Nat
  vecs : List (List ℚ)
deriving DecidableEq

def FaissIndex.ntotal (fi : FaissIndex) : Nat := fi.vecs.length

/-- Model of `FaissIndex.add`: append the batch and return the assigned
positions `ntotal, …, ntotal + n - 1`; FAISS asserts that every vector has
the index's dimensionality. -/
def FaissIndex.add (fi : FaissIndex) (rows : List (List ℚ)) :
    Except StoreErr (List Int × FaissIndex) :=
  if rows.all (fun r => r.length = fi.dim) then
    .ok ((List.range rows.length).map (fun i => ((fi.ntotal + i : Nat) : Int)),
      { fi with vecs := fi.vecs ++ rows })
  else .error .dimMismatch

/-! ## Ingestion orchestrator (`rag03_ingest_faiss.py`) -/

/-- The chunk record read from one JSONL line; every field is accessed via
`dict.get`, so each is optional. -/
structure ChunkJson where
  doc : Option PyStr := none
  source_pdf : Option PyStr := none
  page_start : Option Int := none
  page_end : Option Int := none
  section_title : Option PyStr := none
  text : Option PyStr := none
deriving DecidableEq

/-- The raw text of a chunk record: `ch.get("text") or ""`. -/
def rawText (b : ChunkJson) : PyStr := b.text.getD []

/-- Python `b.get("doc") or "doc"`: both a missing field and the empty
string fall back to the default. -/
def docOf (b : ChunkJson) : PyStr :=
  let d := b.doc.getD []
  if d.isEmpty then "doc".toList else d

/-- Python `b.get("source_pdf") or ""`. -/
def sourceOf (b : ChunkJson) : PyStr := b.source_pdf.getD []

/-- Python `int(b.get("page_start") or 0)` (0 and a missing field both
give 0). -/
def pageStartOf (b : ChunkJson) : Int := b.page_start.getD 0

def pageEndOf (b : ChunkJson) : Int := b.page_end.getD 0

/-- The embedding provider capability: an ordered batch of texts to a
matrix of vectors, or a transport failure (`EmbeddingProviderError`).
The provider is an external collaborator (spec §1), so it is a parameter
of the orchestrator model. -/
abbrev EmbedFn := List PyStr → Except Unit (List (List ℚ))

/-- The shape of `np.array(list_of_rows)`: `some (n, d)` when the array is
a proper 2-d matrix (at least one row, all rows of equal length), `none`
when `ndim != 2` (an empty or ragged list). -/
def shapeOf (rows : List (List ℚ)) : Option (Nat × Nat) :=
  match rows with
  | [] => none
  | r :: _ =>
    if rows.all (fun row => row.length = r.length) then some (rows.length, r.length)
    else none

/-- The errors that abort an ingestion run. -/
inductive IngestErr
  | provider
  | badShape
  | integrity
  | dimMismatch
  | noIndex
deriving DecidableEq

/-- The counters reported by `ingest`. -/
structure IngestStats where
  total : Nat
  skipped : Nat
  added : Nat
  inserted_rows : Nat
deriving DecidableEq

/-- The on-disk artifacts of an index directory: the `faiss.index` file
and the `meta.sqlite` file, each possibly absent. -/
structure Disk where
  faissFile : Option FaissIndex := none
  metaFile : Option MetaDB := none
deriving DecidableEq

/-- Opening the database file: `MetaStore.__init__` creates the file and
schema if absent. -/
def openDB (disk : Disk) : MetaDB := disk.metaFile.getD {}

/-- One iteration of the dedup loop of `ingest`, on the accumulator
`(to_add, skipped, total)`: a chunk whose text strips to nothing is
dropped without counting as skipped; a chunk whose stripped text's digest
is already in the store is skipped; the rest are collected in order. -/
def dedupStep (st0 : MetaStore) (acc : List ChunkJson × Nat × Nat)
    (ch : ChunkJson) : List ChunkJson × Nat × Nat :=
  let text := pyStrip (rawText ch)
  if text.isEmpty then (acc.1, acc.2.1, acc.2.2 + 1)
  else if has_sha1 st0 (sha1_text text) then (acc.1, acc.2.1 + 1, acc.2.2 + 1)
  else (acc.1 ++ [ch], acc.2.1, acc.2.2 + 1)

/-- The dedup pass of `ingest` (the first loop): the chunks to add, the
skipped-existing count and the total count. -/
def dedupPass (st0 : MetaStore) (chunks : List ChunkJson) :
    List ChunkJson × Nat × Nat :=
  chunks.foldl (dedupStep st0) ([], 0, 0)

/-- Python `to_add[i : i + batch_size]` grouping from
`range(0, len(to_add), batch_size)`.  With `bs = 0` Python raises
`ValueError`; the model returns no batches in that case and every theorem
below assumes `1 ≤ bs`. -/
def batchesGo : Nat → Nat → List ChunkJson → List (List ChunkJson)
  | _, _, [] => []
  | 0, _, _ => []
  | fuel + 1, bs, a :: l =>
    if bs = 0 then []
    else (a :: l).take bs :: batchesGo fuel bs ((a :: l).drop bs)

def batches (bs : Nat) (l : List ChunkJson) : List (List ChunkJson) :=
  batchesGo l.length bs l

/-- The in-flight state of the batch loop. -/
structure BatchState where
  store : MetaStore
  faiss : Option FaissIndex
  added : Nat
  inserted_rows : Nat
deriving DecidableEq

/-- The `meta.insert_chunk` loop over one batch (`for b in batch`),
collecting the new rows in order; any integrity error aborts the batch
before the commit. -/
def insertChunks (st : MetaStore) : List ChunkJson →
    Except IngestErr (List ChunkRow × MetaStore)
  | [] => .ok ([], st)
  | b :: rest =>
    match insert_chunk st (docOf b) (sourceOf b) (pageStartOf b) (pageEndOf b)
        b.section_title (rawText b) with
    | .error _ => .error .integrity
    | .ok (row, st') =>
      match insertChunks st' rest with
      | .error e => .error e
      | .ok (rows, st'') => .ok (row :: rows, st'')

/-- One iteration of the batch loop of `ingest`: embed the batch's raw
texts, check the matrix shape, lazily create the index (`ensure_faiss`),
insert the chunk rows, add the vectors (capturing assigned positions),
insert the position mappings, and commit. -/
def processBatch (embed : EmbedFn) (bst : BatchState) (batch : List ChunkJson) :
    Except IngestErr BatchState :=
  let texts := batch.map rawText
  match embed texts with
  | .error _ => .error .provider
  | .ok vecs =>
    match shapeOf vecs with
    | none => .error .badShape
    | some (n, d) =>
      if n ≠ texts.length then .error .badShape
      else
        let fi := bst.faiss.getD { dim := d, vecs := [] }
        match insertChunks bst.store batch with
        | .error e => .error e
        | .ok (rows, st1) =>
          match fi.add vecs with
          | .error _ => .error .dimMismatch
          | .ok (ids, fi') =>
            match insert_faiss_map st1 (ids.zip (rows.map (·.chunk_id))) with
            | .error _ => .error .integrity
            | .ok st2 =>
              .ok { store := commitStore st2, faiss := some fi'
                    added := bst.added + ids.length
                    inserted_rows := bst.inserted_rows + rows.length }

/-- The batch loop.  The second component is the durable database when
the loop stops: a failing batch never reaches its commit, so on error the
durable contents are those of the last fully-committed batch. -/
def runBatches (embed : EmbedFn) : List (List ChunkJson) → BatchState →
    Except IngestErr BatchState × MetaDB
  | [], bst => (.ok bst, bst.store.durable)
  | b :: rest, bst =>
    match processBatch embed bst b with
    | .ok bst' => runBatches embed rest bst'
    | .error e => (.error e, bst.store.durable)

/-- The initial batch-loop state for a run. -/
def initialBState (st0 : MetaStore) (faiss0 : Option FaissIndex) : BatchState :=
  { store := st0, faiss := faiss0, added := 0, inserted_rows := 0 }

/-- Model of `ingest` (rag03_ingest_faiss.py): open the store (creating
the database file), load the index file if present, run the dedup pass,
early-return when nothing is new, otherwise run the batch loop; on
success save the index file and report the counters, on error propagate
it, leaving the index file untouched and the database at its last
committed state.  (The `.noIndex` branch mirrors `faiss_index.save` on a
`None` index; it is unreachable once at least one batch ran.) -/
def ingest (embed : EmbedFn) (bs : Nat) (chunks : List ChunkJson) (disk : Disk) :
    Except IngestErr IngestStats × Disk :=
  let db0 := openDB disk
  let st0 := openStore db0
  let (to_add, skipped, total) := dedupPass st0 chunks
  if to_add.isEmpty then
    (.ok { total := total, skipped := skipped, added := 0, inserted_rows := 0 },
      { disk with metaFile := some db0 })
  else
    match runBatches embed (batches bs to_add) (initialBState st0 disk.faissFile) with
    | (.ok bst, _) =>
      match bst.faiss with
      | some fi =>
        (.ok { total := total, skipped := skipped, added := bst.added
               inserted_rows := bst.inserted_rows },
          { faissFile := some fi, metaFile := some bst.store.durable })
      | none => (.error .noIndex, { disk with metaFile := some bst.store.durable })
    | (.error e, dur) => (.error e, { disk with metaFile := some dur })

/-- A well-behaved embedding provider (the contract of spec §4.4): every
call succeeds and returns one vector of the fixed dimensionality `d` per
input text, in order. -/
def GoodEmbed (embed : EmbedFn) (d : Nat) : Prop :=
  ∀ ts, ∃ rows, embed ts = .ok rows ∧ rows.length = ts.length ∧
    ∀ r ∈ rows, r.length = d

/-- Freshness of the identifier counter: every stored chunk identifier is
below the counter (the model of uuid4 collision-freeness). -/
def StoreInv (st : MetaStore) : Prop :=
  ∀ r ∈ st.live.chunks, r.chunk_id < st.nextId

/-- The number of vectors held by a possibly-absent index. -/
def faissCount (f : Option FaissIndex) : Nat := (f.map FaissIndex.ntotal).getD 0

/-- Every position already recorded in the live map is below the index's
current size, so the positions a batch is assigned are fresh map keys. -/
def MapKeysBelow (st : MetaStore) (f : Option FaissIndex) : Prop :=
  ∀ e ∈ st.live.faissMap, e.1 < (faissCount f : Int)

deriving instance DecidableEq for Except

/-- Observer: the statistics of a successful run. -/
def okStats : Except IngestErr IngestStats → Option IngestStats
  | .ok s => some s
  | .error _ => none

/-- Observer: the error of a failed run. -/
def errOf : Except IngestErr IngestStats → Option IngestErr
  | .ok _ => none
  | .error e => some e

/-- The position-map/vector-index agreement invariant of spec §3: the
positions recorded in the on-disk metadata are exactly `0 … n-1`, where
`n` is the number of vectors in the on-disk index file (an absent index
file holds no vectors). -/
def diskConsistent (disk : Disk) : Prop :=
  (openDB disk).faissMap.map Prod.fst =
    (List.range ((disk.faissFile.map FaissIndex.ntotal).getD 0)).map Int.ofNat

instance (disk : Disk) : Decidable (diskConsistent disk) := by
  unfold diskConsistent
  infer_instance

/-! ## L2 normalization over the reals (`l2_normalize`, rag03_index_faiss.py) -/

/-- The epsilon floor `eps = 1e-12` of `l2_normalize`, as a real. -/
noncomputable def epsR : ℝ := 1 / 10 ^ 12

/-- The squared Euclidean norm of a row. -/
noncomputable def sumSq (r : List ℝ) : ℝ := (r.map (fun v => v * v)).sum

/-- The row norm computed by `np.linalg.norm(x, axis=1)`. -/
noncomputable def rowNorm (r : List ℝ) : ℝ := Real.sqrt (sumSq r)

/-- The divisor `np.maximum(norms, eps)` applied to one row. -/
noncomputable def l2Divisor (r : List ℝ) : ℝ := max (rowNorm r) epsR

/-- Model of `l2_normalize` (rag03_index_faiss.py) over the reals: each
row is divided componentwise by its epsilon-floored norm. -/
noncomputable def l2_normalize (x : List (List ℝ)) : List (List ℝ) :=
  x.map (fun r => r.map (fun v => v / l2Divisor r))

/-! ## Helper lemmas -/

theorem pyStrip_eq_rdropWhile (s : PyStr) :
    pyStrip s = List.rdropWhile isPySpace (s.dropWhile isPySpace) := rfl

theorem dropWhile_eq_self_of_front {q : Char → Bool} {l₁ l : PyStr}
    (hp : l₁ <+: l) (hl : l.dropWhile q = l) : l₁.dropWhile q = l₁ := by
  cases l₁ with
  | nil => rfl
  | cons a t =>
    cases l with
    | nil => simp at hp
    | cons b u =>
      have hab : a = b := by
        obtain ⟨r, hr⟩ := hp
        exact (List.cons.injEq a _ b u).mp (by simpa using hr) |>.1
      have hqb : q b = false := by
        by_contra hq
        rw [Bool.not_eq_false] at hq
        rw [List.dropWhile_cons_of_pos hq] at hl
        have hlen := congrArg List.length hl
        have hle : (List.dropWhile q u).length ≤ u.length :=
          (List.dropWhile_suffix q).sublist.length_le
        simp at hlen
        omega
      rw [hab]
      exact List.dropWhile_cons_of_neg (by simp [hqb])

theorem pyStrip_idem (s : PyStr) : pyStrip (pyStrip s) = pyStrip s := by
  rw [pyStrip_eq_rdropWhile, pyStrip_eq_rdropWhile]
  rw [dropWhile_eq_self_of_front ( List.rdropWhile_prefix _ _)
    (List.dropWhile_idempotent isPySpace s)]
  exact List.rdropWhile_idempotent _ _

theorem flushAcc_chunks_extend (p : ChunkParams) (force : Bool) (s : AccState) :
    s.chunks <+: (flushAcc p force s).chunks := by
  obtain ⟨d, pf, sec, parts, ps, pe, cs⟩ := s
  cases ps <;> cases pe
  · exact List.prefix_rfl
  · exact List.prefix_rfl
  · exact List.prefix_rfl
  · unfold flushAcc
    simp only
    repeat' split
    all_goals first | exact List.prefix_rfl | simp

theorem flushAcc_curSection (p : ChunkParams) (force : Bool) (s : AccState) :
    (flushAcc p force s).curSection = s.curSection := by
  obtain ⟨d, pf, sec, parts, ps, pe, cs⟩ := s
  cases ps <;> cases pe
  · rfl
  · rfl
  · rfl
  · unfold flushAcc
    simp only
    repeat' split
    all_goals rfl

/-- A forced flush on an accumulator that holds text always emits exactly
that text as a chunk, carrying the tracked page range and section title. -/
theorem flushAcc_force_emits (p : ChunkParams) (s : AccState) (ps pe : Int)
    (hps : s.curPageStart = some ps) (hpe : s.curPageEnd = some pe)
    (htext : pyStrip (List.intercalate nl2 s.curTextParts) ≠ []) :
    (flushAcc p true s).chunks = s.chunks ++
      [{ doc := s.curDoc.getD "doc".toList, source_pdf := s.curPdf.getD []
         page_start := ps, page_end := pe, section_title := s.curSection
         text := pyStrip (List.intercalate nl2 s.curTextParts) }] := by
  have hparts : s.curTextParts.isEmpty = false := by
    rcases h : s.curTextParts with _ | ⟨a, t⟩
    · rw [h] at htext
      exact absurd rfl htext
    · rfl
  have htxt2 : (pyStrip (List.intercalate nl2 s.curTextParts)).isEmpty = false := by
    rcases hL : pyStrip (List.intercalate nl2 s.curTextParts) with _ | ⟨a, t⟩
    · exact absurd hL htext
    · rfl
  obtain ⟨d, pf, sec, parts, ps0, pe0, cs⟩ := s
  simp only at hps hpe hparts htxt2
  subst hps hpe
  unfold flushAcc
  simp only [hparts, htxt2, Bool.false_eq_true, if_false, Bool.not_true,
    Bool.and_false]
  split <;> rfl

theorem headingStep_chunks_extend (p : ChunkParams) (block : PyStr) (s : AccState) :
    s.chunks <+: (headingStep p block s).chunks := by
  unfold headingStep
  cases block_starts_with_heading block
  · exact List.prefix_rfl
  · exact flushAcc_chunks_extend p true s

theorem rangeInit_chunks (page : Int) (s : AccState) :
    (rangeInit page s).chunks = s.chunks := rfl

theorem maxStep_chunks_extend (p : ChunkParams) (page : Int) (block : PyStr)
    (s : AccState) : s.chunks <+: (maxStep p page block s).chunks := by
  unfold maxStep
  split
  · exact flushAcc_chunks_extend p true s
  · exact List.prefix_rfl

theorem appendStep_chunks (block : PyStr) (s : AccState) :
    (appendStep block s).chunks = s.chunks := rfl

theorem targetStep_chunks_extend (p : ChunkParams) (s : AccState) :
    s.chunks <+: (targetStep p s).chunks := by
  unfold targetStep
  split
  · exact flushAcc_chunks_extend p false s
  · exact List.prefix_rfl

theorem processBlock_chunks_extend (p : ChunkParams) (page : Int) (block : PyStr)
    (s : AccState) :
    s.chunks <+: (processBlock p page block s).chunks := by
  have h1 := headingStep_chunks_extend p block s
  have h2 := maxStep_chunks_extend p page block (rangeInit page (headingStep p block s))
  have h3 := targetStep_chunks_extend p
    (appendStep block (maxStep p page block (rangeInit page (headingStep p block s))))
  rw [rangeInit_chunks] at h2
  rw [appendStep_chunks] at h3
  exact (h1.trans h2).trans h3

theorem maxStep_curSection (p : ChunkParams) (page : Int) (block : PyStr)
    (s : AccState) : (maxStep p page block s).curSection = s.curSection := by
  unfold maxStep
  split
  · rw [show (rangeInit page (flushAcc p true s)).curSection
        = (flushAcc p true s).curSection from rfl]
    exact flushAcc_curSection p true s
  · rfl

theorem targetStep_curSection (p : ChunkParams) (s : AccState) :
    (targetStep p s).curSection = s.curSection := by
  unfold targetStep
  split
  · exact flushAcc_curSection p false s
  · rfl

theorem processBlock_curSection_heading (p : ChunkParams) (page : Int)
    (block : PyStr) (s : AccState) (h : PyStr)
    (hh : block_starts_with_heading block = some h) :
    (processBlock p page block s).curSection = some h := by
  unfold processBlock
  rw [targetStep_curSection,
    show (appendStep block (maxStep p page block (rangeInit page (headingStep p block s)))).curSection
      = (maxStep p page block (rangeInit page (headingStep p block s))).curSection from rfl,
    maxStep_curSection,
    show (rangeInit page (headingStep p block s)).curSection
      = (headingStep p block s).curSection from rfl]
  unfold headingStep
  rw [hh]

/-! ## Claim theorems: the Chunker -/

/-- C5: whenever a block whose first line is classified as a heading is
processed, the current accumulator — if it holds text — is flushed as a
chunk (carrying the accumulated text, tracked page range and previous
section title) before the heading block is appended, with no condition on
the accumulated size, and the current section title becomes the heading. -/
theorem heading_block_flushes_accumulator (p : ChunkParams) (page : Int)
    (block : PyStr) (s : AccState) (h : PyStr) (ps pe : Int)
    (hh : block_starts_with_heading block = some h)
    (hps : s.curPageStart = some ps) (hpe : s.curPageEnd = some pe)
    (htext : pyStrip (List.intercalate nl2 s.curTextParts) ≠ []) :
    ∃ rest,
      (processBlock p page block s).chunks =
        s.chunks ++
          ({ doc := s.curDoc.getD "doc".toList, source_pdf := s.curPdf.getD []
             page_start := ps, page_end := pe, section_title := s.curSection
             text := pyStrip (List.intercalate nl2 s.curTextParts) } : Chunk) :: rest ∧
        (processBlock p page block s).curSection = some h := by
  have hhead : (headingStep p block s).chunks = s.chunks ++
      [{ doc := s.curDoc.getD "doc".toList, source_pdf := s.curPdf.getD []
         page_start := ps, page_end := pe, section_title := s.curSection
         text := pyStrip (List.intercalate nl2 s.curTextParts) }] := by
    unfold headingStep
    rw [hh]
    exact flushAcc_force_emits p s ps pe hps hpe htext
  obtain ⟨t2, ht2⟩ := maxStep_chunks_extend p page block
    (rangeInit page (headingStep p block s))
  obtain ⟨t3, ht3⟩ := targetStep_chunks_extend p
    (appendStep block (maxStep p page block (rangeInit page (headingStep p block s))))
  refine ⟨t2 ++ t3, ?_, processBlock_curSection_heading p page block s h hh⟩
  show (targetStep p (appendStep block
    (maxStep p page block (rangeInit page (headingStep p block s))))).chunks = _
  rw [← ht3, appendStep_chunks, ← ht2, rangeInit_chunks, hhead]
  simp

/-- Witness for C5 at a concrete input: a sub-`min_chars` accumulator
("abc", 3 characters, `min_chars = 10`) is still flushed when the block
"1.1 Intro\nBody text." arrives. -/
theorem heading_block_flushes_accumulator_witness :
    ∃ rest,
      (processBlock ⟨20, 30, 10, 0⟩ 2 "1.1 Intro\nBody text.".toList
          ⟨some "d".toList, some "s".toList, none, ["abc".toList],
            some 1, some 1, []⟩).chunks =
        ([] : List Chunk) ++
          ({ doc := "d".toList, source_pdf := "s".toList
             page_start := 1, page_end := 1, section_title := none
             text := "abc".toList } : Chunk) :: rest ∧
        (processBlock ⟨20, 30, 10, 0⟩ 2 "1.1 Intro\nBody text.".toList
          ⟨some "d".toList, some "s".toList, none, ["abc".toList],
            some 1, some 1, []⟩).curSection = some "1.1 Intro".toList :=
  heading_block_flushes_accumulator ⟨20, 30, 10, 0⟩ 2 _ _ _ 1 1
    (by decide) rfl rfl (by decide)

/-- C4 counterexample: with `min_chars = 10 < target_chars = 20 ≤
max_chars = 30`, the page "tiny text\n\n1.1 Heading\nMore." produces two
chunks of lengths 9 and 17 — the first chunk is not the final chunk of
the document and violates `min_chars ≤ char_length` (the heading flush is
unconditional). -/
theorem chunk_size_bounds_cex :
    ((chunk_pages ⟨20, 30, 10, 0⟩
        [⟨"d".toList, "s".toList, 1, "tiny text\n\n1.1 Heading\nMore.".toList⟩]).map
      (fun c => c.text.length) = [9, 17]) ∧ 10 < 20 ∧ 20 ≤ 30 ∧ 9 < 10 := by
  decide

/-- C4 amended: the `min_chars` lower bound is enforced exactly at
non-forced (target-size) flushes: such a flush either leaves the state
unchanged or emits a chunk of at least `min_chars` characters.  Chunks
emitted by forced flushes (heading boundaries, `max_chars` overflow, end
of document) may be shorter, and chunk length may exceed `max_chars`
(oversized single blocks, overlap carry-over). -/
theorem nonforced_flush_min_bound (p : ChunkParams) (s : AccState) :
    flushAcc p false s = s ∨
      ∃ c : Chunk, (flushAcc p false s).chunks = s.chunks ++ [c] ∧
        p.min_chars ≤ c.text.length := by
  obtain ⟨d, pf, sec, parts, ps, pe, cs⟩ := s
  cases ps <;> cases pe
  · exact .inl rfl
  · exact .inl rfl
  · exact .inl rfl
  · unfold flushAcc
    simp only
    repeat' split
    · exact .inl rfl
    · exact .inl rfl
    · exact .inl rfl
    · rename_i hmin hov
      refine .inr ⟨_, rfl, ?_⟩
      have hL : ¬(pyStrip (List.intercalate nl2 parts)).length < p.min_chars := by
        simpa using hmin
      simpa using Nat.le_of_not_lt hL
    · rename_i hmin hov
      refine .inr ⟨_, rfl, ?_⟩
      have hL : ¬(pyStrip (List.intercalate nl2 parts)).length < p.min_chars := by
        simpa using hmin
      simpa using Nat.le_of_not_lt hL

theorem flushAcc_good (p : ChunkParams) (force : Bool) (s : AccState)
    (hs : ∀ c ∈ s.chunks, pyStrip c.text = c.text ∧ c.text ≠ []) :
    ∀ c ∈ (flushAcc p force s).chunks, pyStrip c.text = c.text ∧ c.text ≠ [] := by
  obtain ⟨d, pf, sec, parts, ps, pe, cs⟩ := s
  cases ps <;> cases pe
  · exact hs
  · exact hs
  · exact hs
  · unfold flushAcc
    simp only
    repeat' split
    · exact hs
    · exact hs
    · exact hs
    all_goals
      rename_i h1 h2 h3 h4
      intro c hc
      simp only [List.mem_append, List.mem_singleton] at hc
      rcases hc with hc | hc
      · exact hs c hc
      · subst hc
        exact ⟨pyStrip_idem _, by simpa using h2⟩

theorem headingStep_good (p : ChunkParams) (block : PyStr) (s : AccState)
    (hs : ∀ c ∈ s.chunks, pyStrip c.text = c.text ∧ c.text ≠ []) :
    ∀ c ∈ (headingStep p block s).chunks, pyStrip c.text = c.text ∧ c.text ≠ [] := by
  unfold headingStep
  cases block_starts_with_heading block
  · exact hs
  · exact flushAcc_good p true s hs

theorem maxStep_good (p : ChunkParams) (page : Int) (block : PyStr) (s : AccState)
    (hs : ∀ c ∈ s.chunks, pyStrip c.text = c.text ∧ c.text ≠ []) :
    ∀ c ∈ (maxStep p page block s).chunks, pyStrip c.text = c.text ∧ c.text ≠ [] := by
  unfold maxStep
  split
  · exact flushAcc_good p true s hs
  · exact hs

theorem targetStep_good (p : ChunkParams) (s : AccState)
    (hs : ∀ c ∈ s.chunks, pyStrip c.text = c.text ∧ c.text ≠ []) :
    ∀ c ∈ (targetStep p s).chunks, pyStrip c.text = c.text ∧ c.text ≠ [] := by
  unfold targetStep
  split
  · exact flushAcc_good p false s hs
  · exact hs

theorem processBlock_good (p : ChunkParams) (page : Int) (block : PyStr)
    (s : AccState)
    (hs : ∀ c ∈ s.chunks, pyStrip c.text = c.text ∧ c.text ≠ []) :
    ∀ c ∈ (processBlock p page block s).chunks,
      pyStrip c.text = c.text ∧ c.text ≠ [] :=
  targetStep_good p _ (maxStep_good p page block _ (headingStep_good p block s hs))

theorem processPage_good (p : ChunkParams) (pr : PageRecord) (s : AccState)
    (hs : ∀ c ∈ s.chunks, pyStrip c.text = c.text ∧ c.text ≠ []) :
    ∀ c ∈ (processPage p s pr).chunks, pyStrip c.text = c.text ∧ c.text ≠ [] := by
  unfold processPage
  split
  · exact hs
  · generalize split_into_blocks pr.text = blocks
    generalize hq : ({ s with curDoc := some pr.doc, curPdf := some pr.source_pdf }
      : AccState) = s1
    have hs1 : ∀ c ∈ s1.chunks, pyStrip c.text = c.text ∧ c.text ≠ [] := by
      rw [← hq]
      exact hs
    clear hq hs
    induction blocks generalizing s1 with
    | nil => exact hs1
    | cons b bl ih => exact ih _ (processBlock_good p pr.page b s1 hs1)

/-- C9 (implicit): every chunk emitted by the Chunker has text equal to
its own whitespace-strip and non-empty; consequently the digest computed
by the ingest dedup pre-check on the stripped text equals the digest
computed and stored at insertion on the raw text. -/
theorem chunk_text_strip_invariant (p : ChunkParams) (pages : List PageRecord) :
    ∀ c ∈ chunk_pages p pages,
      pyStrip c.text = c.text ∧ c.text ≠ [] ∧
        sha1_text (pyStrip c.text) = sha1_text c.text := by
  have hfold : ∀ c ∈ (pages.foldl (processPage p) {}).chunks,
      pyStrip c.text = c.text ∧ c.text ≠ [] := by
    generalize hq : ({} : AccState) = s0
    have hs0 : ∀ c ∈ s0.chunks, pyStrip c.text = c.text ∧ c.text ≠ [] := by
      rw [← hq]
      intro c hc
      cases hc
    clear hq
    induction pages generalizing s0 with
    | nil => exact hs0
    | cons pr pl ih => exact ih _ (processPage_good p pr s0 hs0)
  intro c hc
  have hg := flushAcc_good p true (pages.foldl (processPage p) {}) hfold c hc
  exact ⟨hg.1, hg.2, by rw [hg.1]⟩

/-- Witness for C9 at a concrete input: the single chunk produced from
the page "Hello world." satisfies the strip invariant. -/
theorem chunk_text_strip_invariant_witness :
    ∃ c, c ∈ chunk_pages ⟨20, 30, 10, 0⟩
        [⟨"d".toList, "s".toList, 1, "Hello world.".toList⟩] ∧
      (pyStrip c.text = c.text ∧ c.text ≠ [] ∧
        sha1_text (pyStrip c.text) = sha1_text c.text) :=
  ⟨⟨"d".toList, "s".toList, 1, 1, none, "Hello world.".toList⟩, by decide,
    chunk_text_strip_invariant ⟨20, 30, 10, 0⟩
      [⟨"d".toList, "s".toList, 1, "Hello world.".toList⟩]
      ⟨"d".toList, "s".toList, 1, 1, none, "Hello world.".toList⟩ (by decide)⟩

/-! ## Claim theorems: retrieval resolution and normalization -/

theorem filter_flatMap_join (chs : List ChunkRow) (l : List (Int × Nat))
    (ids : List Int) (i : Int) (hi : i ∈ ids) :
    ((l.filter (fun e => ids.contains e.1)).flatMap (fun e =>
        (chs.filter (fun c => c.chunk_id = e.2)).map (fun c =>
          ({ faiss_id := e.1, doc := c.doc, source_pdf := c.source_pdf
             page_start := c.page_start, page_end := c.page_end
             section_title := c.section_title, text := c.text } : MetaHit)))).filter
        (fun r => r.faiss_id = i)
      = (l.flatMap (fun e =>
          (chs.filter (fun c => c.chunk_id = e.2)).map (fun c =>
            ({ faiss_id := e.1, doc := c.doc, source_pdf := c.source_pdf
               page_start := c.page_start, page_end := c.page_end
               section_title := c.section_title, text := c.text } : MetaHit)))).filter
          (fun r => r.faiss_id = i) := by
  induction l with
  | nil => rfl
  | cons e t ih =>
    by_cases he : ids.contains e.1
    · simp only [List.filter_cons, he, if_true, List.flatMap_cons, List.filter_append, ih]
    · have hne : e.1 ≠ i := by
        intro hcontra
        rw [hcontra] at he
        exact he (by simpa using hi)
      simp only [List.filter_cons, he, Bool.false_eq_true, if_false,
        List.flatMap_cons, List.filter_append, ih]
      have hnil : ((chs.filter (fun c => c.chunk_id = e.2)).map (fun c =>
          ({ faiss_id := e.1, doc := c.doc, source_pdf := c.source_pdf
             page_start := c.page_start, page_end := c.page_end
             section_title := c.section_title, text := c.text } : MetaHit))).filter
            (fun r => r.faiss_id = i) = [] := by
        rw [List.filter_eq_nil_iff]
        intro a ha
        obtain ⟨c, hc, rfl⟩ := List.mem_map.mp ha
        simpa using hne
      rw [hnil, List.nil_append]

/-- C7: resolving a list of requested positions returns the rows in
exactly the caller's requested order — the result is the requested list
filtered through a per-position lookup that is independent of the request
— so each requested position contributes at most one row, in place, and
positions without a mapping are silently omitted (the lookup returns
`none` for them). -/
theorem resolve_preserves_requested_order (db : MetaDB) (ids : List Int) :
    get_chunks_by_faiss_ids db ids = ids.filterMap (resolveOne db) := by
  unfold get_chunks_by_faiss_ids
  split
  · rename_i hids
    rw [List.isEmpty_iff] at hids
    rw [hids]
    rfl
  · apply List.filterMap_congr
    intro i hi
    unfold resolveOne byIdLookup joinRows
    rw [filter_flatMap_join db.chunks db.faissMap ids i hi]

/-- C8: the divisor used by `l2_normalize` is the row norm floored at
`eps = 1e-12 > 0`, for every row of every input matrix — including
all-zero rows — so the normalization performed before every index add and
search never divides by zero and is defined for all inputs. -/
theorem l2_normalize_divisor_positive :
    (0 : ℝ) < epsR ∧
      (∀ x : List (List ℝ), l2_normalize x =
        x.map (fun r => r.map (fun v => v / l2Divisor r))) ∧
      ∀ r : List ℝ, epsR ≤ l2Divisor r ∧ l2Divisor r ≠ 0 := by
  have heps : (0 : ℝ) < epsR := by
    unfold epsR
    positivity
  refine ⟨heps, fun x => rfl, fun r => ⟨?_, ?_⟩⟩
  · unfold l2Divisor
    exact le_max_right _ _
  · unfold l2Divisor
    exact ne_of_gt (lt_of_lt_of_le heps (le_max_right _ _))

/-- C6: the two-page scenario of spec §8 — page 1
"1.1 Overview\nShort intro paragraph.", page 2
"Continuation text that is still short.", with `target_chars = 1000`,
`max_chars = 1200`, `min_chars = 10`, `overlap_chars = 0` — yields
exactly one chunk with `page_start = 1`, `page_end = 2` and
`section_title = "1.1 Overview"`. -/
theorem two_page_scenario :
    (chunk_pages ⟨1000, 1200, 10, 0⟩
        [⟨"doc1".toList, "m.pdf".toList, 1,
          "1.1 Overview\nShort intro paragraph.".toList⟩,
         ⟨"doc1".toList, "m.pdf".toList, 2,
          "Continuation text that is still short.".toList⟩]).map
      (fun c => (c.page_start, c.page_end, c.section_title))
      = [(1, 2, some "1.1 Overview".toList)] := by
  decide

/-! ## Ingestion lemmas -/

theorem dedup_foldl_known (st0 : MetaStore) (chunks : List ChunkJson)
    (h : ∀ ch ∈ chunks, pyStrip (rawText ch) ≠ [] ∧
        has_sha1 st0 (sha1_text (pyStrip (rawText ch))) = true) :
    ∀ acc, chunks.foldl (dedupStep st0) acc
      = (acc.1, acc.2.1 + chunks.length, acc.2.2 + chunks.length) := by
  induction chunks with
  | nil => intro acc; rfl
  | cons ch t ih =>
    intro acc
    obtain ⟨hne, hk⟩ := h ch (List.mem_cons_self ch t)
    rw [List.foldl_cons]
    have hstep : dedupStep st0 acc ch = (acc.1, acc.2.1 + 1, acc.2.2 + 1) := by
      unfold dedupStep
      rw [if_neg (by simpa using hne), if_pos hk]
    rw [hstep, ih (fun c hc => h c (List.mem_cons_of_mem ch hc))]
    simp only [Prod.mk.injEq, List.length_cons, true_and]
    omega

theorem dedup_foldl_new (st0 : MetaStore) (chunks : List ChunkJson)
    (h : ∀ ch ∈ chunks, pyStrip (rawText ch) ≠ [] ∧
        has_sha1 st0 (sha1_text (pyStrip (rawText ch))) = false) :
    ∀ acc, chunks.foldl (dedupStep st0) acc
      = (acc.1 ++ chunks, acc.2.1, acc.2.2 + chunks.length) := by
  induction chunks with
  | nil => intro acc; simp
  | cons ch t ih =>
    intro acc
    obtain ⟨hne, hk⟩ := h ch (List.mem_cons_self ch t)
    rw [List.foldl_cons]
    have hstep : dedupStep st0 acc ch = (acc.1 ++ [ch], acc.2.1, acc.2.2 + 1) := by
      unfold dedupStep
      rw [if_neg (by simpa using hne), if_neg (by simp [hk])]
    rw [hstep, ih (fun c hc => h c (List.mem_cons_of_mem ch hc))]
    simp only [Prod.mk.injEq, List.length_cons, List.append_assoc,
      List.singleton_append, true_and]
    omega

theorem dedup_foldl_none_new (st0 : MetaStore) (chunks : List ChunkJson)
    (h : ∀ ch ∈ chunks, pyStrip (rawText ch) = [] ∨
        has_sha1 st0 (sha1_text (pyStrip (rawText ch))) = true) :
    ∀ acc, (chunks.foldl (dedupStep st0) acc).1 = acc.1 := by
  induction chunks with
  | nil => intro acc; rfl
  | cons ch t ih =>
    intro acc
    rw [List.foldl_cons]
    rw [ih (fun c hc => h c (List.mem_cons_of_mem ch hc))]
    rcases h ch (List.mem_cons_self ch t) with hempty | hk
    · unfold dedupStep
      rw [if_pos (by simpa using hempty)]
    · unfold dedupStep
      simp only
      split <;> rfl

theorem shapeOf_of_dims (rows : List (List ℚ)) (d : Nat) (hne : rows ≠ [])
    (hd : ∀ r ∈ rows, r.length = d) : shapeOf rows = some (rows.length, d) := by
  cases rows with
  | nil => exact absurd rfl hne
  | cons r t =>
    have hr : r.length = d := hd r (List.mem_cons_self r t)
    have hall : ((r :: t).all fun row => decide (row.length = r.length)) = true := by
      rw [List.all_eq_true]
      intro row hrow
      simp [hd row hrow, hr]
    unfold shapeOf
    simp only
    rw [if_pos hall, hr]

theorem FaissIndex.add_ok (fi : FaissIndex) (rows : List (List ℚ))
    (hd : ∀ r ∈ rows, r.length = fi.dim) :
    fi.add rows = .ok
      ((List.range rows.length).map (fun i => ((fi.ntotal + i : Nat) : Int)),
        { fi with vecs := fi.vecs ++ rows }) := by
  have hall : (rows.all fun r => decide (r.length = fi.dim)) = true := by
    rw [List.all_eq_true]
    intro r hr
    simp [hd r hr]
  unfold FaissIndex.add
  rw [if_pos hall]

theorem insert_faiss_map_ok (pairs : List (Int × Nat)) :
    ∀ st : MetaStore,
      (∀ e ∈ st.live.faissMap, ∀ q ∈ pairs, e.1 ≠ q.1) →
      (pairs.map Prod.fst).Nodup →
      ∃ st', insert_faiss_map st pairs = .ok st' ∧
        st'.live.faissMap = st.live.faissMap ++ pairs ∧
        st'.live.chunks = st.live.chunks ∧
        st'.durable = st.durable ∧ st'.nextId = st.nextId := by
  induction pairs with
  | nil => exact fun st _ _ => ⟨st, rfl, by simp, rfl, rfl, rfl⟩
  | cons q t ih =>
    intro st hdisj hnodup
    obtain ⟨fid, cid⟩ := q
    obtain ⟨hnotin, hnd⟩ : fid ∉ List.map Prod.fst t ∧ (List.map Prod.fst t).Nodup := by
      simpa using hnodup
    have hnokey : st.live.faissMap.any (fun e => e.1 = fid) = false := by
      rw [List.any_eq_false]
      intro e he
      simpa using hdisj e he (fid, cid) (List.mem_cons_self _ t)
    unfold insert_faiss_map
    simp only
    rw [if_neg (by simp [hnokey])]
    have hdisj' : ∀ e ∈ st.live.faissMap ++ [(fid, cid)], ∀ q ∈ t, e.1 ≠ q.1 := by
      intro e he q hq
      rcases List.mem_append.mp he with he | he
      · exact hdisj e he q (List.mem_cons_of_mem _ hq)
      · rw [List.mem_singleton.mp he]
        intro hcontra
        have hfid : fid = q.1 := hcontra
        refine hnotin ?_
        rw [hfid]
        exact List.mem_map_of_mem Prod.fst hq
    obtain ⟨st', h1, h2, h3, h4, h5⟩ :=
      ih { st with live := { st.live with faissMap := st.live.faissMap ++ [(fid, cid)] } }
        hdisj' hnd
    refine ⟨st', h1, ?_, h3, h4, h5⟩
    rw [h2]
    simp

theorem insertChunks_ok (batch : List ChunkJson) :
    ∀ st : MetaStore,
      (batch.map (fun b => sha1_text (rawText b))).Nodup →
      (∀ b ∈ batch, ∀ r ∈ st.live.chunks, r.sha1 ≠ sha1_text (rawText b)) →
      StoreInv st →
      ∃ rows st',
        insertChunks st batch = .ok (rows, st') ∧
        rows.length = batch.length ∧
        st'.live.chunks = st.live.chunks ++ rows ∧
        rows.map (fun r => r.sha1) = batch.map (fun b => sha1_text (rawText b)) ∧
        st'.live.faissMap = st.live.faissMap ∧
        st'.durable = st.durable ∧
        StoreInv st' := by
  induction batch with
  | nil =>
    intro st _ _ hinv
    exact ⟨[], st, rfl, rfl, by simp, rfl, rfl, rfl, hinv⟩
  | cons b t ih =>
    intro st hnodup hfresh hinv
    obtain ⟨hnotin, hnd⟩ :
        sha1_text (rawText b) ∉ t.map (fun b => sha1_text (rawText b)) ∧
          (t.map (fun b => sha1_text (rawText b))).Nodup := by
      simpa using hnodup
    have hid : st.live.chunks.any (fun r => r.chunk_id = st.nextId) = false := by
      rw [List.any_eq_false]
      intro r hr
      have := hinv r hr
      simp only [decide_eq_true_eq]
      omega
    have hsha : st.live.chunks.any
        (fun r => r.sha1 = sha1_text (rawText b)) = false := by
      rw [List.any_eq_false]
      intro r hr
      simpa using hfresh b (List.mem_cons_self b t) r hr
    have hstep : insert_chunk st (docOf b) (sourceOf b) (pageStartOf b)
        (pageEndOf b) b.section_title (rawText b)
        = .ok
          ({ chunk_id := st.nextId, doc := docOf b, source_pdf := sourceOf b
             page_start := pageStartOf b, page_end := pageEndOf b
             section_title := b.section_title, text := rawText b
             sha1 := sha1_text (rawText b) },
           { st with
               live := { st.live with chunks := st.live.chunks ++
                 [{ chunk_id := st.nextId, doc := docOf b, source_pdf := sourceOf b
                    page_start := pageStartOf b, page_end := pageEndOf b
                    section_title := b.section_title, text := rawText b
                    sha1 := sha1_text (rawText b) }] }
               nextId := st.nextId + 1 }) := by
      unfold insert_chunk
      simp only
      rw [if_neg (by simp [hid]), if_neg (by simp [hsha])]
    have hfresh1 : ∀ b2 ∈ t, ∀ r ∈ st.live.chunks ++
        [({ chunk_id := st.nextId, doc := docOf b, source_pdf := sourceOf b
            page_start := pageStartOf b, page_end := pageEndOf b
            section_title := b.section_title, text := rawText b
            sha1 := sha1_text (rawText b) } : ChunkRow)],
        r.sha1 ≠ sha1_text (rawText b2) := by
      intro b2 hb2 r hr
      rcases List.mem_append.mp hr with hr | hr
      · exact hfresh b2 (List.mem_cons_of_mem b hb2) r hr
      · rw [List.mem_singleton.mp hr]
        intro hcontra
        refine hnotin ?_
        have : sha1_text (rawText b) = sha1_text (rawText b2) := hcontra
        rw [this]
        exact List.mem_map_of_mem _ hb2
    have hinv1 : StoreInv
        { st with
            live := { st.live with chunks := st.live.chunks ++
              [{ chunk_id := st.nextId, doc := docOf b, source_pdf := sourceOf b
                 page_start := pageStartOf b, page_end := pageEndOf b
                 section_title := b.section_title, text := rawText b
                 sha1 := sha1_text (rawText b) }] }
            nextId := st.nextId + 1 } := by
      intro r hr
      rcases List.mem_append.mp hr with hr | hr
      · have := hinv r hr
        simp only
        omega
      · rw [List.mem_singleton.mp hr]
        simp
    obtain ⟨rows, st2, h1, h2, h3, h4, h5, h6, h7⟩ := ih _ hnd hfresh1 hinv1
    refine ⟨({ chunk_id := st.nextId, doc := docOf b, source_pdf := sourceOf b
               page_start := pageStartOf b, page_end := pageEndOf b
               section_title := b.section_title, text := rawText b
               sha1 := sha1_text (rawText b) } : ChunkRow) :: rows, st2, ?_,
      by simpa using h2, ?_, ?_, ?_, ?_, h7⟩
    · unfold insertChunks
      rw [hstep]
      simp only
      rw [h1]
    · rw [h3]
      simp
    · simp only [List.map_cons]
      rw [h4]
    · rw [h5]
    · rw [h6]

theorem processBatch_ok (embed : EmbedFn) (d : Nat) (hemb : GoodEmbed embed d)
    (bst : BatchState) (batch : List ChunkJson)
    (hne : batch ≠ [])
    (hnodup : (batch.map (fun b => sha1_text (rawText b))).Nodup)
    (hfresh : ∀ b ∈ batch, ∀ r ∈ bst.store.live.chunks,
      r.sha1 ≠ sha1_text (rawText b))
    (hinv : StoreInv bst.store)
    (hkeys : MapKeysBelow bst.store bst.faiss)
    (hdim : ∀ fi, bst.faiss = some fi → fi.dim = d) :
    ∃ bst', processBatch embed bst batch = .ok bst' ∧
      bst'.added = bst.added + batch.length ∧
      bst'.inserted_rows = bst.inserted_rows + batch.length ∧
      bst'.store.live = bst'.store.durable ∧
      bst'.store.live.chunks.map (fun r => r.sha1)
        = bst.store.live.chunks.map (fun r => r.sha1)
          ++ batch.map (fun b => sha1_text (rawText b)) ∧
      StoreInv bst'.store ∧
      MapKeysBelow bst'.store bst'.faiss ∧
      (∃ fi', bst'.faiss = some fi' ∧ fi'.dim = d) := by
  obtain ⟨rows, hok, hlen, hdims⟩ := hemb (batch.map rawText)
  rw [List.length_map] at hlen
  have hrowsne : rows ≠ [] := by
    intro hcontra
    rw [hcontra] at hlen
    cases batch with
    | nil => exact hne rfl
    | cons x xs => simp at hlen
  have hshape : shapeOf rows = some (rows.length, d) :=
    shapeOf_of_dims rows d hrowsne hdims
  have hfid : (bst.faiss.getD { dim := d, vecs := [] }).dim = d := by
    cases hb : bst.faiss with
    | none => rfl
    | some fi => exact hdim fi hb
  have hcnt : faissCount bst.faiss
      = (bst.faiss.getD { dim := d, vecs := [] }).ntotal := by
    cases bst.faiss <;> rfl
  obtain ⟨rows2, st1, hic, hlen2, hchunks1, hsha1s, hmap1, hdur1, hinv1⟩ :=
    insertChunks_ok batch bst.store hnodup hfresh hinv
  have hadd := FaissIndex.add_ok (bst.faiss.getD { dim := d, vecs := [] }) rows
    (by intro r hr; rw [hdims r hr, hfid])
  have hidmem : ∀ q ∈ ((List.range rows.length).map
      (fun i => (((bst.faiss.getD { dim := d, vecs := [] }).ntotal + i : Nat) : Int))).zip
        (rows2.map (fun r => r.chunk_id)),
      ∃ i : Nat, i < rows.length ∧
        q.1 = (((bst.faiss.getD { dim := d, vecs := [] }).ntotal + i : Nat) : Int) := by
    intro q hq
    have hq1 := (List.of_mem_zip hq).1
    obtain ⟨i, hi, hqi⟩ := List.mem_map.mp hq1
    exact ⟨i, List.mem_range.mp hi, hqi.symm⟩
  have hdisj : ∀ e ∈ st1.live.faissMap,
      ∀ q ∈ ((List.range rows.length).map
        (fun i => (((bst.faiss.getD { dim := d, vecs := [] }).ntotal + i : Nat) : Int))).zip
          (rows2.map (fun r => r.chunk_id)), e.1 ≠ q.1 := by
    intro e he q hq
    obtain ⟨i, hi, hqi⟩ := hidmem q hq
    rw [hmap1] at he
    have hlt := hkeys e he
    rw [hcnt] at hlt
    rw [hqi]
    intro hcontra
    rw [hcontra] at hlt
    omega
  have hnodupkeys : ((((List.range rows.length).map
      (fun i => (((bst.faiss.getD { dim := d, vecs := [] }).ntotal + i : Nat) : Int))).zip
        (rows2.map (fun r => r.chunk_id))).map Prod.fst).Nodup := by
    rw [List.map_fst_zip]
    · refine List.Nodup.map ?_ (List.nodup_range rows.length)
      intro a b hab
      simp only at hab
      omega
    · simp only [List.length_map, List.length_range, hlen, hlen2]
      exact le_rfl
  obtain ⟨st2, him, hmap2, hchunks2, hdur2, hnid2⟩ :=
    insert_faiss_map_ok _ st1 hdisj hnodupkeys
  refine ⟨{ store := commitStore st2
            faiss := some { bst.faiss.getD { dim := d, vecs := [] } with
              vecs := (bst.faiss.getD { dim := d, vecs := [] }).vecs ++ rows }
            added := bst.added + ((List.range rows.length).map
              (fun i => (((bst.faiss.getD { dim := d, vecs := [] }).ntotal + i : Nat) : Int))).length
            inserted_rows := bst.inserted_rows + rows2.length },
    ?_, ?_, ?_, rfl, ?_, ?_, ?_, ?_⟩
  · unfold processBatch
    simp only
    rw [hok]
    simp only
    rw [hshape]
    simp only
    rw [if_neg (fun hc => hc (by rw [hlen, List.length_map]))]
    rw [hic]
    simp only
    rw [hadd]
    simp only
    rw [him]
  · simp only [List.length_map, List.length_range]
    rw [hlen]
  · simp only
    rw [hlen2]
  · show st2.live.chunks.map (fun r => r.sha1) = _
    rw [hchunks2, hchunks1]
    rw [List.map_append, hsha1s]
  · intro r hr
    show r.chunk_id < st2.nextId
    rw [hnid2]
    exact hinv1 r (by rw [← hchunks2]; exact hr)
  · intro e he
    show e.1 < _
    have he2 : e ∈ st2.live.faissMap := he
    rw [hmap2, hmap1] at he2
    rcases List.mem_append.mp he2 with hold | hnew
    · have hlt := hkeys e hold
      rw [hcnt] at hlt
      simp only [FaissIndex.ntotal] at hlt
      simp [faissCount, FaissIndex.ntotal]
      omega
    · obtain ⟨i, hi, hqi⟩ := hidmem e hnew
      rw [hqi]
      simp only [FaissIndex.ntotal]
      simp [faissCount, FaissIndex.ntotal]
      omega
  · exact ⟨_, rfl, hfid⟩

theorem runBatches_ok (embed : EmbedFn) (d : Nat) (hemb : GoodEmbed embed d) :
    ∀ (bl : List (List ChunkJson)) (bst : BatchState),
      (∀ b ∈ bl, b ≠ []) →
      (bl.flatten.map (fun b => sha1_text (rawText b))).Nodup →
      (∀ b ∈ bl.flatten, ∀ r ∈ bst.store.live.chunks,
        r.sha1 ≠ sha1_text (rawText b)) →
      StoreInv bst.store →
      MapKeysBelow bst.store bst.faiss →
      (∀ fi, bst.faiss = some fi → fi.dim = d) →
      bst.store.live = bst.store.durable →
      ∃ bst',
        runBatches embed bl bst = (.ok bst', bst'.store.durable) ∧
        bst'.added = bst.added + bl.flatten.length ∧
        bst'.inserted_rows = bst.inserted_rows + bl.flatten.length ∧
        bst'.store.live = bst'.store.durable ∧
        bst'.store.live.chunks.map (fun r => r.sha1)
          = bst.store.live.chunks.map (fun r => r.sha1)
            ++ bl.flatten.map (fun b => sha1_text (rawText b)) ∧
        (bl = [] → bst' = bst) ∧ (bl ≠ [] → ∃ fi, bst'.faiss = some fi) := by
  intro bl
  induction bl with
  | nil =>
    intro bst _ _ _ _ _ _ hld
    exact ⟨bst, rfl, by simp, by simp, hld, by simp, fun _ => rfl,
      fun hne => absurd rfl hne⟩
  | cons b t ih =>
    intro bst hne hnodup hfresh hinv hkeys hdim hld
    have hflat : (b :: t).flatten = b ++ t.flatten := by simp
    rw [hflat] at hnodup hfresh
    rw [List.map_append] at hnodup
    obtain ⟨hnod1, hnod2, hdisj⟩ := List.nodup_append.mp hnodup
    obtain ⟨bst1, hpb, hadd1, hins1, hld1, hsha1, hinv1, hkeys1, fi1, hfi1, hfid1⟩ :=
      processBatch_ok embed d hemb bst b (hne b (List.mem_cons_self b t)) hnod1
        (fun b1 hb1 r hr => hfresh b1 (List.mem_append_left _ hb1) r hr)
        hinv hkeys hdim
    have hfresh1 : ∀ b2 ∈ t.flatten, ∀ r ∈ bst1.store.live.chunks,
        r.sha1 ≠ sha1_text (rawText b2) := by
      intro b2 hb2 r hr
      have hmem : r.sha1 ∈ bst1.store.live.chunks.map (fun r => r.sha1) :=
        List.mem_map_of_mem _ hr
      rw [hsha1] at hmem
      rcases List.mem_append.mp hmem with hmem | hmem
      · obtain ⟨r0, hr0, hr0e⟩ := List.mem_map.mp hmem
        rw [← hr0e]
        exact hfresh b2 (List.mem_append_right _ hb2) r0 hr0
      · intro hcontra
        refine hdisj hmem ?_
        rw [hcontra]
        exact List.mem_map_of_mem _ hb2
    obtain ⟨bst2, hrb, hadd2, hins2, hld2, hsha2, hnil2, hne2⟩ :=
      ih bst1 (fun b1 hb1 => hne b1 (List.mem_cons_of_mem b hb1)) hnod2 hfresh1
        hinv1 hkeys1 (fun fi hfi => by rw [hfi1] at hfi; cases hfi; exact hfid1)
        hld1
    refine ⟨bst2, ?_, ?_, ?_, hld2, ?_, fun hcontra => absurd hcontra (by simp),
      fun _ => ?_⟩
    · show runBatches embed (b :: t) bst = _
      unfold runBatches
      rw [hpb]
      exact hrb
    · rw [hadd2, hadd1, hflat]
      simp only [List.length_append]
      omega
    · rw [hins2, hins1, hflat]
      simp only [List.length_append]
      omega
    · rw [hsha2, hsha1, hflat]
      simp [List.map_append]
    · cases ht : t with
      | nil =>
        rw [ht] at hnil2
        rw [hnil2 rfl]
        exact ⟨fi1, hfi1⟩
      | cons x xs =>
        rw [ht] at hne2
        exact hne2 (by simp)

theorem batchesGo_spec (bs : Nat) (hbs : bs ≠ 0) :
    ∀ fuel (l : List ChunkJson), l.length ≤ fuel →
      (batchesGo fuel bs l).flatten = l ∧ ∀ b ∈ batchesGo fuel bs l, b ≠ [] := by
  intro fuel
  induction fuel with
  | zero =>
    intro l hl
    have hnil : l = [] := List.length_eq_zero.mp (Nat.le_zero.mp hl)
    subst hnil
    exact ⟨rfl, fun b hb => absurd hb (by intro h; cases h)⟩
  | succ fuel ih =>
    intro l hl
    cases l with
    | nil => exact ⟨rfl, fun b hb => absurd hb (by intro h; cases h)⟩
    | cons a t =>
      have hred0 : batchesGo (fuel + 1) bs (a :: t)
          = if bs = 0 then [] else
              (a :: t).take bs :: batchesGo fuel bs ((a :: t).drop bs) := rfl
      have hred : batchesGo (fuel + 1) bs (a :: t)
          = (a :: t).take bs :: batchesGo fuel bs ((a :: t).drop bs) := by
        rw [hred0, if_neg hbs]
      have hdroplen : ((a :: t).drop bs).length ≤ fuel := by
        simp only [List.length_drop, List.length_cons]
        simp only [List.length_cons] at hl
        omega
      obtain ⟨ihf, ihne⟩ := ih _ hdroplen
      constructor
      · rw [hred, List.flatten_cons, ihf]
        exact List.take_append_drop bs (a :: t)
      · rw [hred]
        intro b hb
        rcases List.mem_cons.mp hb with hb | hb
        · subst hb
          cases bs with
          | zero => exact absurd rfl hbs
          | succ n => simp
        · exact ihne b hb

theorem batches_flatten (bs : Nat) (hbs : bs ≠ 0) (l : List ChunkJson) :
    (batches bs l).flatten = l :=
  (batchesGo_spec bs hbs l.length l le_rfl).1

theorem batches_nonempty (bs : Nat) (hbs : bs ≠ 0) (l : List ChunkJson) :
    ∀ b ∈ batches bs l, b ≠ [] :=
  (batchesGo_spec bs hbs l.length l le_rfl).2

theorem batches_ne_nil (bs : Nat) (hbs : bs ≠ 0) (l : List ChunkJson)
    (hl : l ≠ []) : batches bs l ≠ [] := by
  intro hcontra
  refine hl ?_
  rw [← batches_flatten bs hbs l, hcontra]
  rfl

/-- When the batch loop stops — normally or on a per-batch error — the
durable database is exactly the state after some fully-committed prefix of
the batches. -/
theorem runBatches_durable_committed (embed : EmbedFn) :
    ∀ (bl : List (List ChunkJson)) (bst : BatchState),
      ∃ j bst', runBatches embed (bl.take j) bst = (.ok bst', bst'.store.durable) ∧
        (runBatches embed bl bst).2 = bst'.store.durable := by
  intro bl
  induction bl with
  | nil => exact fun bst => ⟨0, bst, rfl, rfl⟩
  | cons b t ih =>
    intro bst
    cases hpb : processBatch embed bst b with
    | error e =>
      refine ⟨0, bst, rfl, ?_⟩
      show (runBatches embed (b :: t) bst).2 = _
      unfold runBatches
      rw [hpb]
    | ok bst1 =>
      obtain ⟨j, bst', h1, h2⟩ := ih bst1
      refine ⟨j + 1, bst', ?_, ?_⟩
      · rw [List.take_succ_cons]
        show runBatches embed (b :: t.take j) bst = _
        unfold runBatches
        rw [hpb]
        exact h1
      · show (runBatches embed (b :: t) bst).2 = _
        unfold runBatches
        rw [hpb]
        exact h2

/-! ## Claim theorems: the Ingestion Orchestrator -/

/-- C10 (implicit frame property): if every chunk in the stream has empty
(after stripping) text or a content hash already present in the metadata
store, `ingest` reports `added = 0` and returns early: the vector-index
file is not created, modified or saved, and no chunk row or position
mapping is inserted (the database file is only opened, which creates the
schema — a data no-op — when absent). -/
theorem ingest_no_new_frame (embed : EmbedFn) (bs : Nat) (chunks : List ChunkJson)
    (disk : Disk)
    (h : ∀ ch ∈ chunks, pyStrip (rawText ch) = [] ∨
        has_sha1 (openStore (openDB disk)) (sha1_text (pyStrip (rawText ch))) = true) :
    ∃ stats : IngestStats,
      ingest embed bs chunks disk
        = (.ok stats, { disk with metaFile := some (openDB disk) }) ∧
      stats.added = 0 := by
  have hta : (dedupPass (openStore (openDB disk)) chunks).1 = [] :=
    dedup_foldl_none_new (openStore (openDB disk)) chunks h ([], 0, 0)
  unfold ingest
  simp only
  rcases hdp : dedupPass (openStore (openDB disk)) chunks with ⟨ta, sk, tot⟩
  rw [hdp] at hta
  simp only at hta
  subst hta
  simp only
  rw [if_pos (show ([] : List ChunkJson).isEmpty = true from rfl)]
  exact ⟨_, rfl, rfl⟩

/-- Witness for C10 at a concrete input: one whitespace-only chunk against
an empty directory. -/
theorem ingest_no_new_frame_witness :
    ∃ stats : IngestStats,
      ingest (fun ts => .ok (ts.map fun _ => ([1] : List ℚ))) 64
          [{ text := some "   ".toList }] ⟨none, none⟩
        = (.ok stats,
            { (⟨none, none⟩ : Disk) with metaFile := some (openDB ⟨none, none⟩) }) ∧
      stats.added = 0 :=
  ingest_no_new_frame (fun ts => .ok (ts.map fun _ => ([1] : List ℚ))) 64
    [{ text := some "   ".toList }] ⟨none, none⟩ (by decide)

theorem runBatches_ok_snd (embed : EmbedFn) :
    ∀ (bl : List (List ChunkJson)) (bst bst1 : BatchState) (snd : MetaDB),
      runBatches embed bl bst = (.ok bst1, snd) → snd = bst1.store.durable := by
  intro bl
  induction bl with
  | nil =>
    intro bst bst1 snd h
    have h1 : Except.ok (ε := IngestErr) bst = .ok bst1 := congrArg Prod.fst h
    have h2 : bst.store.durable = snd := congrArg Prod.snd h
    cases h1
    exact h2.symm
  | cons b t ih =>
    intro bst bst1 snd h
    unfold runBatches at h
    cases hpb : processBatch embed bst b with
    | ok bstm =>
      rw [hpb] at h
      exact ih bstm bst1 snd h
    | error e =>
      rw [hpb] at h
      have : Except.error (α := BatchState) e = .ok bst1 := congrArg Prod.fst h
      cases this

/-- C3 counterexample: three one-character chunks, batch size 2, and a
provider that fails on the second batch.  The run errors after committing
batch one: the durable metadata records positions 0 and 1, but the index
file was never written (the source saves it only at the end of a fully
successful run), so the on-disk metadata and on-disk vector index are
*not* mutually consistent and do not jointly reflect the committed
batches. -/
theorem ingest_batch_failure_cex :
    (errOf (ingest
        (fun ts => if ts.contains "c".toList then .error ()
          else .ok (ts.map fun _ => ([1] : List ℚ)))
        2 [{ text := some "a".toList }, { text := some "b".toList },
           { text := some "c".toList }] ⟨none, none⟩).1 = some .provider) ∧
    ((ingest
        (fun ts => if ts.contains "c".toList then .error ()
          else .ok (ts.map fun _ => ([1] : List ℚ)))
        2 [{ text := some "a".toList }, { text := some "b".toList },
           { text := some "c".toList }] ⟨none, none⟩).2.faissFile = none) ∧
    (((ingest
        (fun ts => if ts.contains "c".toList then .error ()
          else .ok (ts.map fun _ => ([1] : List ℚ)))
        2 [{ text := some "a".toList }, { text := some "b".toList },
           { text := some "c".toList }] ⟨none, none⟩).2.metaFile.getD
        {}).faissMap.map Prod.fst = [0, 1]) ∧
    ¬diskConsistent (ingest
        (fun ts => if ts.contains "c".toList then .error ()
          else .ok (ts.map fun _ => ([1] : List ℚ)))
        2 [{ text := some "a".toList }, { text := some "b".toList },
           { text := some "c".toList }] ⟨none, none⟩).2 := by
  decide

/-- C3 amended: when a batch aborts the run (for instance on an embedding
provider failure), `ingest` surfaces the error, the on-disk vector-index
file is left exactly as it was before the run (it is saved only at the end
of a fully successful run), and the durable metadata equals the state
after some fully-committed prefix of the batches — so committed prior
batches are not corrupted.  The two on-disk artifacts are not mutually
consistent in general: the metadata reflects the committed batches while
the index file still reflects the pre-run state. -/
theorem ingest_error_preserves_committed (embed : EmbedFn) (bs : Nat)
    (chunks : List ChunkJson) (disk : Disk) (e : IngestErr)
    (hfail : (ingest embed bs chunks disk).1 = .error e) :
    (ingest embed bs chunks disk).2.faissFile = disk.faissFile ∧
    ∃ j bst',
      runBatches embed
          ((batches bs (dedupPass (openStore (openDB disk)) chunks).1).take j)
          (initialBState (openStore (openDB disk)) disk.faissFile)
        = (.ok bst', bst'.store.durable) ∧
      (ingest embed bs chunks disk).2.metaFile = some bst'.store.durable := by
  unfold ingest at hfail ⊢
  simp only at hfail ⊢
  rcases hdp : dedupPass (openStore (openDB disk)) chunks with ⟨ta, sk, tot⟩
  rw [hdp] at hfail
  simp only at hfail ⊢
  obtain ⟨j, bst', h1, h2⟩ := runBatches_durable_committed embed
    (batches bs ta) (initialBState (openStore (openDB disk)) disk.faissFile)
  by_cases hta : ta.isEmpty
  · rw [if_pos hta] at hfail
    simp at hfail
  · rw [if_neg hta] at hfail ⊢
    rcases hrb : runBatches embed (batches bs ta)
        (initialBState (openStore (openDB disk)) disk.faissFile) with ⟨res, dur⟩
    rw [hrb] at hfail
    have hdur : dur = bst'.store.durable := by
      rw [← h2, hrb]
    cases res with
    | ok bst =>
      simp only at hfail ⊢
      cases hfi : bst.faiss with
      | some fi =>
        rw [hfi] at hfail
        cases hfail
      | none =>
        simp only at hfail ⊢
        have hsnd : dur = bst.store.durable := runBatches_ok_snd embed _ _ _ _ hrb
        refine ⟨trivial, j, bst', h1, ?_⟩
        show some bst.store.durable = some bst'.store.durable
        rw [← hsnd, hdur]
    | error e2 =>
      simp only at hfail ⊢
      refine ⟨trivial, j, bst', h1, ?_⟩
      show some dur = some bst'.store.durable
      rw [hdur]

/-- Witness for C3 at the counterexample input: the error hypothesis is
discharged concretely. -/
theorem ingest_error_preserves_committed_witness :
    ((ingest
        (fun ts => if ts.contains "c".toList then .error ()
          else .ok (ts.map fun _ => ([1] : List ℚ)))
        2 [{ text := some "a".toList }, { text := some "b".toList },
           { text := some "c".toList }] ⟨none, none⟩).2.faissFile
      = (⟨none, none⟩ : Disk).faissFile) ∧
    ∃ j bst',
      runBatches
          (fun ts => if ts.contains "c".toList then .error ()
            else .ok (ts.map fun _ => ([1] : List ℚ)))
          ((batches 2 (dedupPass (openStore (openDB ⟨none, none⟩))
              [{ text := some "a".toList }, { text := some "b".toList },
               { text := some "c".toList }]).1).take j)
          (initialBState (openStore (openDB ⟨none, none⟩))
            (⟨none, none⟩ : Disk).faissFile)
        = (.ok bst', bst'.store.durable) ∧
      (ingest
          (fun ts => if ts.contains "c".toList then .error ()
            else .ok (ts.map fun _ => ([1] : List ℚ)))
          2 [{ text := some "a".toList }, { text := some "b".toList },
             { text := some "c".toList }] ⟨none, none⟩).2.metaFile
        = some bst'.store.durable :=
  ingest_error_preserves_committed
    (fun ts => if ts.contains "c".toList then .error ()
      else .ok (ts.map fun _ => ([1] : List ℚ)))
    2 [{ text := some "a".toList }, { text := some "b".toList },
       { text := some "c".toList }] ⟨none, none⟩ .provider (by decide)

theorem insert_chunk_dup_error (st : MetaStore) (doc src : PyStr) (ps pe : Int)
    (sec : Option PyStr) (text : PyStr)
    (hdup : st.live.chunks.any (fun r => r.sha1 = sha1_text text) = true) :
    ∃ e, insert_chunk st doc src ps pe sec text = .error e := by
  unfold insert_chunk
  simp only
  split
  all_goals first
    | exact ⟨.integrity, rfl⟩
    | (rw [if_pos hdup]; exact ⟨.integrity, rfl⟩)
    | simp_all

theorem insertChunks_head_dup (st : MetaStore) (b : ChunkJson)
    (rest : List ChunkJson)
    (hdup : st.live.chunks.any (fun r => r.sha1 = sha1_text (rawText b)) = true) :
    insertChunks st (b :: rest) = .error .integrity := by
  obtain ⟨e, he⟩ := insert_chunk_dup_error st (docOf b) (sourceOf b)
    (pageStartOf b) (pageEndOf b) b.section_title (rawText b) hdup
  unfold insertChunks
  rw [he]

theorem insertChunks_pair_dup (st : MetaStore) (b : ChunkJson)
    (hid : st.live.chunks.any (fun r => r.chunk_id = st.nextId) = false)
    (hsha : st.live.chunks.any (fun r => r.sha1 = sha1_text (rawText b)) = false) :
    insertChunks st [b, b] = .error .integrity := by
  have hstep : insert_chunk st (docOf b) (sourceOf b) (pageStartOf b)
      (pageEndOf b) b.section_title (rawText b)
      = .ok
        ({ chunk_id := st.nextId, doc := docOf b, source_pdf := sourceOf b
           page_start := pageStartOf b, page_end := pageEndOf b
           section_title := b.section_title, text := rawText b
           sha1 := sha1_text (rawText b) },
         { st with
             live := { st.live with chunks := st.live.chunks ++
               [({ chunk_id := st.nextId, doc := docOf b, source_pdf := sourceOf b
                   page_start := pageStartOf b, page_end := pageEndOf b
                   section_title := b.section_title, text := rawText b
                   sha1 := sha1_text (rawText b) } : ChunkRow)] }
             nextId := st.nextId + 1 }) := by
    unfold insert_chunk
    simp only
    rw [if_neg (by simp [hid]), if_neg (by simp [hsha])]
  have hdup2 : ({ st with
      live := { st.live with chunks := st.live.chunks ++
        [({ chunk_id := st.nextId, doc := docOf b, source_pdf := sourceOf b
            page_start := pageStartOf b, page_end := pageEndOf b
            section_title := b.section_title, text := rawText b
            sha1 := sha1_text (rawText b) } : ChunkRow)] }
      nextId := st.nextId + 1 } : MetaStore).live.chunks.any
        (fun r => r.sha1 = sha1_text (rawText b)) = true := by
    simp
  unfold insertChunks
  rw [hstep]
  simp only
  rw [insertChunks_head_dup _ b [] hdup2]

theorem processBatch_insert_error (embed : EmbedFn) (d : Nat)
    (hemb : GoodEmbed embed d) (bst : BatchState) (batch : List ChunkJson)
    (hbne : batch ≠ [])
    (hins : insertChunks bst.store batch = .error .integrity) :
    processBatch embed bst batch = .error .integrity := by
  obtain ⟨rows, hok, hlen, hdims⟩ := hemb (batch.map rawText)
  have hrowsne : rows ≠ [] := by
    intro hc
    rw [hc] at hlen
    cases batch with
    | nil => exact hbne rfl
    | cons x xs => simp at hlen
  have hshape := shapeOf_of_dims rows d hrowsne hdims
  unfold processBatch
  simp only
  rw [hok]
  simp only
  rw [hshape]
  simp only
  rw [if_neg (fun hc => hc hlen)]
  rw [hins]

/-- C2 counterexample: ingesting, into an empty index directory, a list of
exactly two chunks with byte-identical non-empty text "hello" does not
return `added = 1, skipped = 1`: both duplicates pass the dedup gate
(which only consults the already-persisted store), the second `INSERT`
violates the UNIQUE constraint on the content hash, and the run aborts
with an integrity error; no index file is written. -/
theorem within_run_duplicate_cex :
    (ingest (fun ts => .ok (ts.map fun _ => ([1] : List ℚ))) 64
        [{ text := some "hello".toList }, { text := some "hello".toList }]
        ⟨none, none⟩).1 = .error .integrity ∧
    okStats (ingest (fun ts => .ok (ts.map fun _ => ([1] : List ℚ))) 64
        [{ text := some "hello".toList }, { text := some "hello".toList }]
        ⟨none, none⟩).1 = none ∧
    (ingest (fun ts => .ok (ts.map fun _ => ([1] : List ℚ))) 64
        [{ text := some "hello".toList }, { text := some "hello".toList }]
        ⟨none, none⟩).2.faissFile = none := by
  decide

/-- C2 amended: for any batch size, any well-behaved embedder and any
non-empty whitespace-free text, ingesting two byte-identical chunks into
an empty index directory aborts with an integrity error (the second
insert violates the store UNIQUE content-hash constraint; within-run
duplicates are not covered by the dedup gate, which only consults the
already-persisted store) and the vector-index file is not created.
`added = 1, skipped = 1` only arises when the duplicate is already
persisted by an earlier run. -/
theorem within_run_duplicate_aborts (embed : EmbedFn) (d bs : Nat) (t : PyStr)
    (hbs : bs ≠ 0) (hemb : GoodEmbed embed d) (ht : pyStrip t = t)
    (hne : t ≠ []) :
    (ingest embed bs [{ text := some t }, { text := some t }] ⟨none, none⟩).1
      = .error .integrity ∧
    (ingest embed bs
        [{ text := some t }, { text := some t }] ⟨none, none⟩).2.faissFile
      = none := by
  have hchunk : ∀ ch ∈ [({ text := some t } : ChunkJson), { text := some t }],
      pyStrip (rawText ch) ≠ [] ∧
        has_sha1 (openStore (openDB ⟨none, none⟩))
          (sha1_text (pyStrip (rawText ch))) = false := by
    intro ch hch
    rcases List.mem_cons.mp hch with hc | hc
    · subst hc
      exact ⟨by rw [show rawText { text := some t } = t from rfl, ht]; exact hne, rfl⟩
    · rw [List.mem_singleton.mp hc]
      exact ⟨by rw [show rawText { text := some t } = t from rfl, ht]; exact hne, rfl⟩
  have hdd : dedupPass (openStore (openDB ⟨none, none⟩))
      [({ text := some t } : ChunkJson), { text := some t }]
      = ([({ text := some t } : ChunkJson), { text := some t }], 0, 2) := by
    unfold dedupPass
    rw [dedup_foldl_new _ _ hchunk ([], 0, 0)]
    rfl
  have hinsPair : insertChunks (openStore (openDB ⟨none, none⟩))
      [({ text := some t } : ChunkJson), { text := some t }]
      = .error .integrity :=
    insertChunks_pair_dup _ _ rfl rfl
  have hinge : ∃ dur, ingest embed bs
      [({ text := some t } : ChunkJson), { text := some t }] ⟨none, none⟩
      = (.error .integrity, { faissFile := none, metaFile := some dur }) := by
    unfold ingest
    simp only
    rw [hdd]
    simp only
    rw [if_neg (by simp)]
    rcases bs with _ | n
    · exact absurd rfl hbs
    rcases n with _ | m
    · -- batch size 1: two singleton batches; the second aborts
      have hbatches : batches 1 [({ text := some t } : ChunkJson), { text := some t }]
          = [[{ text := some t }], [{ text := some t }]] := rfl
      rw [hbatches]
      obtain ⟨bst1, hpb1, hadd1, hins1, hld1, hsha1, hinv1, hkeys1, fi1, hfi1, hfid1⟩ :=
        processBatch_ok embed d hemb
          (initialBState (openStore (openDB ⟨none, none⟩)) none)
          [{ text := some t }] (by simp) (by simp)
          (fun b1 hb1 r hr => absurd hr (List.not_mem_nil r))
          (fun r hr => absurd hr (List.not_mem_nil r))
          (fun e he => absurd he (List.not_mem_nil e))
          (fun fi hfi => by cases hfi)
      have hdup2 : bst1.store.live.chunks.any
          (fun r => r.sha1 = sha1_text (rawText ({ text := some t } : ChunkJson)))
          = true := by
        rw [List.any_eq_true]
        have hmem : sha1_text (rawText ({ text := some t } : ChunkJson))
            ∈ bst1.store.live.chunks.map (fun r => r.sha1) := by
          rw [hsha1]
          simp
        obtain ⟨r, hr, hre⟩ := List.mem_map.mp hmem
        exact ⟨r, hr, by simp [hre]⟩
      have hpb2 := processBatch_insert_error embed d hemb bst1
        [{ text := some t }] (by simp)
        (insertChunks_head_dup bst1.store _ [] hdup2)
      refine ⟨bst1.store.durable, ?_⟩
      unfold runBatches
      rw [hpb1]
      unfold runBatches
      rw [hpb2]
    · -- batch size at least 2: a single two-chunk batch aborts
      have h0 : batchesGo 2 (m + 2)
          [({ text := some t } : ChunkJson), { text := some t }]
          = if (m + 2) = 0 then [] else
              List.take (m + 2) [({ text := some t } : ChunkJson), { text := some t }]
                :: batchesGo 1 (m + 2)
                  (List.drop (m + 2)
                    [({ text := some t } : ChunkJson), { text := some t }]) := rfl
      have htake : List.take (m + 2)
          [({ text := some t } : ChunkJson), { text := some t }]
          = [{ text := some t }, { text := some t }] := by simp
      have hdrop : List.drop (m + 2)
          [({ text := some t } : ChunkJson), { text := some t }] = [] := by simp
      have hbatches : batches (m + 2)
          [({ text := some t } : ChunkJson), { text := some t }]
          = [[{ text := some t }, { text := some t }]] := by
        show batchesGo 2 (m + 2) _ = _
        rw [h0, if_neg (by omega), htake, hdrop]
        rfl
      rw [hbatches]
      have hpb := processBatch_insert_error embed d hemb
        (initialBState (openStore (openDB ⟨none, none⟩)) none)
        [{ text := some t }, { text := some t }] (by simp) hinsPair
      refine ⟨(initialBState (openStore (openDB ⟨none, none⟩)) none).store.durable, ?_⟩
      unfold runBatches
      rw [hpb]
  obtain ⟨dur, hd⟩ := hinge
  rw [hd]
  exact ⟨rfl, rfl⟩

/-- Witness for C2 with `t = "hello"`, batch size 64 and a constant
one-dimensional embedder. -/
theorem within_run_duplicate_aborts_witness :
    (ingest (fun ts => .ok (ts.map fun _ => ([1] : List ℚ))) 64
        [{ text := some "hello".toList }, { text := some "hello".toList }]
        ⟨none, none⟩).1 = .error .integrity ∧
    (ingest (fun ts => .ok (ts.map fun _ => ([1] : List ℚ))) 64
        [{ text := some "hello".toList }, { text := some "hello".toList }]
        ⟨none, none⟩).2.faissFile = none :=
  within_run_duplicate_aborts (fun ts => .ok (ts.map fun _ => ([1] : List ℚ)))
    1 64 "hello".toList (by decide)
    (fun ts => ⟨ts.map (fun _ => [1]), rfl, by simp, by
      intro r hr
      obtain ⟨x, hx, hxe⟩ := List.mem_map.mp hr
      rw [← hxe]
      rfl⟩)
    (by decide) (by decide)

/-- C1 counterexample: a single chunk whose non-empty text " x " carries
surrounding whitespace.  The first run adds it (`added = N = 1`), but the
second run does not skip it: the dedup pre-check hashes the *stripped*
text "x" while the stored hash is of the *raw* text " x ", so the second
run re-inserts the chunk, violates the UNIQUE hash constraint and aborts
— instead of reporting `added = 0, skipped = 1`. -/
theorem ingest_idempotence_cex :
    okStats (ingest (fun ts => .ok (ts.map fun _ => ([1] : List ℚ))) 64
        [{ text := some " x ".toList }] ⟨none, none⟩).1
      = some { total := 1, skipped := 0, added := 1, inserted_rows := 1 } ∧
    (ingest (fun ts => .ok (ts.map fun _ => ([1] : List ℚ))) 64
        [{ text := some " x ".toList }]
        (ingest (fun ts => .ok (ts.map fun _ => ([1] : List ℚ))) 64
          [{ text := some " x ".toList }] ⟨none, none⟩).2).1
      = .error .integrity := by
  decide

/-- C1 amended: for a non-empty chunk stream whose texts are pairwise
distinct (as digests), equal to their own whitespace-strip and non-empty,
with a well-behaved embedder and a positive batch size, ingesting twice
into a fresh index directory yields `added = N, skipped = 0` on the first
run and `added = 0, skipped = N` on the second, and the second run leaves
the on-disk index and metadata byte-for-byte unchanged — no duplicate
vectors or rows. -/
theorem ingest_twice_idempotent (embed : EmbedFn) (d bs : Nat)
    (chunks : List ChunkJson)
    (hbs : bs ≠ 0) (hne : chunks ≠ []) (hemb : GoodEmbed embed d)
    (htexts : ∀ c ∈ chunks, pyStrip (rawText c) = rawText c ∧ rawText c ≠ [])
    (hdist : (chunks.map (fun b => sha1_text (rawText b))).Nodup) :
    ∃ st1 st2 disk1,
      ingest embed bs chunks ⟨none, none⟩ = (.ok st1, disk1) ∧
      st1.added = chunks.length ∧ st1.skipped = 0 ∧
      ingest embed bs chunks disk1 = (.ok st2, disk1) ∧
      st2.added = 0 ∧ st2.skipped = chunks.length := by
  have hchunk1 : ∀ ch ∈ chunks, pyStrip (rawText ch) ≠ [] ∧
      has_sha1 (openStore (openDB ⟨none, none⟩))
        (sha1_text (pyStrip (rawText ch))) = false := by
    intro ch hch
    obtain ⟨hs, hn⟩ := htexts ch hch
    exact ⟨by rw [hs]; exact hn, rfl⟩
  have hdd1 : dedupPass (openStore (openDB ⟨none, none⟩)) chunks
      = (chunks, 0, chunks.length) := by
    unfold dedupPass
    rw [dedup_foldl_new _ _ hchunk1 ([], 0, 0)]
    simp
  obtain ⟨bst', hrb, hadd, hins, hld, hsha, hnil, hnee⟩ :=
    runBatches_ok embed d hemb (batches bs chunks)
      (initialBState (openStore (openDB ⟨none, none⟩)) none)
      (batches_nonempty bs hbs chunks)
      (by rw [batches_flatten bs hbs]; exact hdist)
      (fun b hb r hr => absurd hr (List.not_mem_nil r))
      (fun r hr => absurd hr (List.not_mem_nil r))
      (fun e he => absurd he (List.not_mem_nil e))
      (fun fi hfi => by cases hfi)
      rfl
  obtain ⟨fi, hfi⟩ := hnee (batches_ne_nil bs hbs chunks hne)
  rw [batches_flatten bs hbs] at hadd hins hsha
  have hing1 : ingest embed bs chunks ⟨none, none⟩
      = (.ok { total := chunks.length, skipped := 0, added := bst'.added
               inserted_rows := bst'.inserted_rows },
         { faissFile := some fi, metaFile := some bst'.store.durable }) := by
    unfold ingest
    simp only
    rw [hdd1]
    simp only
    rw [if_neg (by simpa [List.isEmpty_iff] using hne)]
    rw [hrb]
    simp only
    rw [hfi]
  have hdursha : bst'.store.durable.chunks.map (fun r => r.sha1)
      = chunks.map (fun b => sha1_text (rawText b)) := by
    rw [← hld, hsha]
    simp [initialBState, openStore, openDB]
  have hchunk2 : ∀ ch ∈ chunks, pyStrip (rawText ch) ≠ [] ∧
      has_sha1 (openStore (openDB ⟨some fi, some bst'.store.durable⟩))
        (sha1_text (pyStrip (rawText ch))) = true := by
    intro ch hch
    obtain ⟨hs, hn⟩ := htexts ch hch
    refine ⟨by rw [hs]; exact hn, ?_⟩
    rw [hs]
    show bst'.store.durable.chunks.any
      (fun r => r.sha1 = sha1_text (rawText ch)) = true
    rw [List.any_eq_true]
    have hmem : sha1_text (rawText ch)
        ∈ bst'.store.durable.chunks.map (fun r => r.sha1) := by
      rw [hdursha]
      exact List.mem_map_of_mem _ hch
    obtain ⟨r, hr, hre⟩ := List.mem_map.mp hmem
    exact ⟨r, hr, by simp [hre]⟩
  have hdd2 : dedupPass (openStore (openDB ⟨some fi, some bst'.store.durable⟩))
      chunks = ([], chunks.length, chunks.length) := by
    unfold dedupPass
    rw [dedup_foldl_known _ _ hchunk2 ([], 0, 0)]
    simp
  have hing2 : ingest embed bs chunks ⟨some fi, some bst'.store.durable⟩
      = (.ok { total := chunks.length, skipped := chunks.length, added := 0
               inserted_rows := 0 },
         ⟨some fi, some bst'.store.durable⟩) := by
    unfold ingest
    simp only
    rw [hdd2]
    simp only
    rw [if_pos (show ([] : List ChunkJson).isEmpty = true from rfl)]
    rfl
  refine ⟨_, _, _, hing1, ?_, rfl, hing2, rfl, rfl⟩
  show bst'.added = chunks.length
  rw [hadd]
  simp [initialBState]

/-- Witness for C1 on a concrete two-chunk stream with distinct
whitespace-free texts, batch size 64 and a constant one-dimensional
embedder. -/
theorem ingest_twice_idempotent_witness :
    ∃ st1 st2 disk1,
      ingest (fun ts => .ok (ts.map fun _ => ([1] : List ℚ))) 64
          [{ text := some "alpha".toList }, { text := some "beta".toList }]
          ⟨none, none⟩ = (.ok st1, disk1) ∧
      st1.added = [({ text := some "alpha".toList } : ChunkJson),
        { text := some "beta".toList }].length ∧ st1.skipped = 0 ∧
      ingest (fun ts => .ok (ts.map fun _ => ([1] : List ℚ))) 64
          [{ text := some "alpha".toList }, { text := some "beta".toList }]
          disk1 = (.ok st2, disk1) ∧
      st2.added = 0 ∧
      st2.skipped = [({ text := some "alpha".toList } : ChunkJson),
        { text := some "beta".toList }].length :=
  ingest_twice_idempotent (fun ts => .ok (ts.map fun _ => ([1] : List ℚ)))
    1 64 [{ text := some "alpha".toList }, { text := some "beta".toList }]
    (by decide) (by decide)
    (fun ts => ⟨ts.map (fun _ => [1]), rfl, by simp, by
      intro r hr
      obtain ⟨x, hx, hxe⟩ := List.mem_map.mp hr
      rw [← hxe]
      rfl⟩)
    (by decide) (by decide)

end Rag
